import Mathlib

/-!
Verification of the core of the `8n3-prime-search` repository: a shallow
embedding, in Lean 4, of the per-n solver, the primality machinery, the
mod-30 wheel sieve and the batched a-major verifier, together with theorems
settling the frozen specification claims.

Machine integers are embedded as `Nat` with explicit reductions modulo
`2 ^ 64` (`W64`) or `2 ^ 128` (`W128`) exactly where the C code's `uint64_t`
or `__uint128_t` arithmetic can wrap.  Bitmaps are embedded index-to-Bool
functions.  C `while` loops without an evident variant carry explicit fuel
and return `Option`; `none` models a loop that has not finished.
-/

/-- `2 ^ 64`, the wrap modulus of `uint64_t` arithmetic. -/
def W64 : Nat := 2 ^ 64

/-- `2 ^ 128`, the wrap modulus of `__uint128_t` arithmetic. -/
def W128 : Nat := 2 ^ 128

/-- uint64 subtraction `x - y` (wrapping), for `x < 2^64`. -/
def sub64 (x y : Nat) : Nat := (x + W64 - y % W64) % W64

/-- Structural helper for `stepsUpto`: the first argument is spare fuel
(any value at least `bound - start` gives the full list). -/
def stepsUptoF (step : Nat) : Nat → Nat → Nat → List Nat
  | 0, _, _ => []
  | fuel + 1, start, bound =>
    if start < bound ∧ 0 < step then start :: stepsUptoF step fuel (start + step) bound else []

/-- The ascending list `start, start + step, start + 2*step, …` of values
below `bound`; the shape shared by the C `for` loops that walk an
arithmetic progression.  Empty when `step = 0` (no such loop is ever run
with step 0 in the sources). -/
def stepsUpto (start step bound : Nat) : List Nat := stepsUptoF step (bound - start) start bound

/-! ### isqrt64 (src/include/arith.h) -/

/-- The down-correction loop of `isqrt64`:
`while (x > 0 && x * x > n) x--;` — the product `x * x` is a `uint64_t`
multiplication and wraps modulo `2^64`.  Fueled: `none` = still looping. -/
def isqrtDown (n : Nat) : Nat → Nat → Option Nat
  | 0, _ => none
  | fuel + 1, x => if 0 < x ∧ n < x * x % W64 then isqrtDown n fuel (x - 1) else some x

/-- The up-correction loop of `isqrt64`:
`while ((x + 1) * (x + 1) <= n) x++;` — again with the wrapping `uint64_t`
product, and a wrapping increment.  Fueled: `none` = still looping. -/
def isqrtUp (n : Nat) : Nat → Nat → Option Nat
  | 0, _ => none
  | fuel + 1, x =>
    if (x + 1) * (x + 1) % W64 ≤ n then isqrtUp n fuel ((x + 1) % W64) else some x

/-- `isqrt64` (src/include/arith.h).  The floating-point seed
`(uint64_t)sqrtl((long double)n)` is modelled by the parameter `seed`
(reduced to a `uint64_t` value), and the two correction `while` loops are
given explicit `fuel`. -/
def isqrt64 (seed fuel n : Nat) : Option Nat :=
  if n = 0 then some 0
  else
    match isqrtDown n fuel (seed % W64) with
    | none => none
    | some x => isqrtUp n fuel x

/-! ### Primality oracle (src/include/prime.h) -/

/-- `TRIAL_PRIMES` (src/include/prime.h): the 120 odd primes from 3 to 661
used by the trial-division prefilter. -/
def TRIAL_PRIMES : List Nat :=
  [3, 5, 7, 11, 13, 17, 19, 23, 29, 31,
   37, 41, 43, 47, 53, 59, 61, 67, 71, 73,
   79, 83, 89, 97, 101, 103, 107, 109, 113, 127,
   131, 137, 139, 149, 151, 157, 163, 167, 173, 179,
   181, 191, 193, 197, 199, 211, 223, 227, 229, 233,
   239, 241, 251, 257, 263, 269, 271, 277, 281, 283,
   293, 307, 311, 313, 317, 331, 337, 347, 349, 353,
   359, 367, 373, 379, 383, 389, 397, 401, 409, 419,
   421, 431, 433, 439, 443, 449, 457, 461, 463, 467,
   479, 487, 491, 499, 503, 509, 521, 523, 541, 547,
   557, 563, 569, 571, 577, 587, 593, 599, 601, 607,
   613, 617, 619, 631, 641, 643, 647, 653, 659, 661]

/-- The sequential core of `trial_division_check` (src/include/solve.h):
test the candidate against each prime of the list in order; on the first
divisor found return `1` if the candidate *is* that prime and `0`
(composite) otherwise; return `2` (undecided) when no prime divides.
(The source's hand-inlining of the first 7 primes and 4x unrolling of the
remaining loop visit exactly this prime sequence in this order.) -/
def trialDivList (candidate : Nat) : List Nat → Nat
  | [] => 2
  | p :: ps =>
    if candidate % p = 0 then (if candidate = p then 1 else 0) else trialDivList candidate ps

/-- `trial_division_check` (src/include/solve.h):
0 = composite (filtered), 1 = is small prime, 2 = needs Miller-Rabin. -/
def trial_division_check (candidate : Nat) : Nat := trialDivList candidate TRIAL_PRIMES

/-- Modelled from the spec: the Forisek-Jancina witness table
(`fj64_table.h`, the 262144-entry 16-bit array `fj64_bases`) is not under
`src/`; it is declared an immutable input.  §4.2 of the spec states that
`is_prime_fj64_fast` "decides primality of n" and that "the result is
deterministic and exact for all 64-bit n", assuming its contract (`n`
odd, `n > 127`) — the two hashed-witness Miller-Rabin rounds together
with the table distinguish primes from composites there.  We model the
oracle by that contract where the program consults it (always on odd
candidates `≥ 3`): it answers exactly primality
(`is_prime_fj64_fast_iff` below), here as an executable divisor test.
The *present* dispatch code of src/include/prime.h, whose out-of-contract
behavior is pinned independently of the table, is embedded separately as
`is_prime_fj64_fast_dispatch`. -/
def is_prime_fj64_fast (n : Nat) : Bool :=
  decide (2 ≤ n) && (List.range n).all fun d => decide (d ≤ 1) || decide (n % d ≠ 0)

/-- `is_candidate_prime` (src/include/solve.h): trial-division prefilter,
then the `<= 127` small-candidate shortcut, then the FJ64 oracle. -/
def is_candidate_prime (candidate : Nat) : Bool :=
  let td := trial_division_check candidate
  if td = 0 then false
  else if td = 1 then true
  else if candidate ≤ 127 then true
  else is_prime_fj64_fast candidate

/-! ### Per-n solver (src/include/solve.h) -/

/-- The inner loop of `find_solution_from_N` (src/include/solve.h),
parameterized by the primality tester it consults (the source calls
`is_candidate_prime`).  State: current `a`, current `candidate`, current
`delta`; all `uint64_t`, so updates wrap modulo `2^64`.  Returns
`some (a, p)` for `return a` with `*p_out = candidate`, and `none` for the
`return 0` (counterexample) exit.
Each iteration does: `if (candidate >= 2 && prime) return a;
if (a < 3) break (return 0); candidate += delta; delta -= 4; a -= 2;`.
The four-way match on `a` keeps the recursion structural (the `a < 3`
test is folded into the patterns); `findWalkWith_eq` below restates it as
the single C-shaped equation. -/
def findWalkWith (test : Nat → Bool) : Nat → Nat → Nat → Option (Nat × Nat)
  | 0, candidate, _ => if 2 ≤ candidate ∧ test candidate then some (0, candidate) else none
  | 1, candidate, _ => if 2 ≤ candidate ∧ test candidate then some (1, candidate) else none
  | 2, candidate, _ => if 2 ≤ candidate ∧ test candidate then some (2, candidate) else none
  | a + 3, candidate, delta =>
    if 2 ≤ candidate ∧ test candidate then some (a + 3, candidate)
    else findWalkWith test (a + 1) ((candidate + delta) % W64) ((delta + (W64 - 4)) % W64)

/-- `find_solution_from_N` (src/include/solve.h): initialize
`candidate = (N - a_max * a_max) >> 1` and `delta = 2 * (a_max - 1)`
(`uint64_t` arithmetic, so the subtraction and products wrap) and run the
walk. -/
def find_solution_from_N (N a_max : Nat) : Option (Nat × Nat) :=
  findWalkWith is_candidate_prime a_max (sub64 (N % W64) (a_max * a_max) / 2)
    (2 * (a_max - 1) % W64)

/-- The `if ((a_max & 1) == 0) a_max--;` adjustment of `find_solution`
(wrapping at 0, as the `uint64_t` decrement would). -/
def oddify (r : Nat) : Nat := if r % 2 = 0 then (r + (W64 - 1)) % W64 else r

/-- `find_solution` (src/include/solve.h): compute `N = 8n + 3` and
`a_max = isqrt64(N)` made odd, then run `find_solution_from_N`.  The outer
`Option` is the fuel/seed bookkeeping of the embedded `isqrt64`; the inner
`Option (Nat × Nat)` is the C function's result (`some (a, p)` vs
`return 0`). -/
def find_solution (seed fuel n : Nat) : Option (Option (Nat × Nat)) :=
  match isqrt64 seed fuel ((8 * n + 3) % W64) with
  | none => none
  | some r => some (find_solution_from_N ((8 * n + 3) % W64) (oddify r))

/-! ### Montgomery arithmetic (src/include/arith_montgomery.h) -/

/-- `MONTGOMERY_SAFE_THRESHOLD` = `1ULL << 63`. -/
def MONTGOMERY_SAFE_THRESHOLD : Nat := 2 ^ 63

/-- `mulmod64_std`: `((__uint128_t)a * b) % m` — the 128-bit intermediate
is exact for `uint64_t` inputs. -/
def mulmod64_std (a b m : Nat) : Nat := a * b % m

/-- The `while (exp > 0)` loop of `powmod64_std`, with its state
`(exp, result, base)`. -/
def powmodLoop (m : Nat) : Nat → Nat → Nat → Nat
  | exp, result, base =>
    if _h : exp = 0 then result
    else
      powmodLoop m (exp / 2) (if exp % 2 = 1 then mulmod64_std result base m else result)
        (mulmod64_std base base m)
termination_by exp _ _ => exp
decreasing_by exact Nat.div_lt_self (Nat.pos_of_ne_zero _h) (by omega)

/-- `powmod64_std` (src/include/arith_montgomery.h). -/
def powmod64_std (base exp m : Nat) : Nat := powmodLoop m exp 1 (base % m)

/-- The number of trailing zero bits of `n` (`__builtin_ctzll`, which the
sources only apply to nonzero arguments); `twoVal 0 = 0` by convention. -/
def twoVal : Nat → Nat
  | 0 => 0
  | n + 1 => if (n + 1) % 2 = 1 then 0 else twoVal ((n + 1) / 2) + 1
decreasing_by exact Nat.div_lt_self (Nat.succ_pos n) (by omega)

/-- One `x *= 2 - n * x;` step of `montgomery_inverse`, in `uint64_t`
arithmetic (the subtraction `2 - n * x` wraps modulo `2^64`). -/
def minvStep (n x : Nat) : Nat := x * ((2 + W64 - n * x % W64) % W64) % W64

/-- `montgomery_inverse` (src/include/arith_montgomery.h): five Newton
steps from `x = n`, then `return -x;` (uint64 negation). -/
def montgomery_inverse (n : Nat) : Nat :=
  (W64 - minvStep n (minvStep n (minvStep n (minvStep n (minvStep n (n % W64))))) % W64) % W64

/-- `montgomery_reduce` (src/include/arith_montgomery.h):
`m = (uint64_t)t * n_inv; u = (uint64_t)((t + (__uint128_t)m * n) >> 64);
return u >= n ? u - n : u;` — the sum `t + m*n` is `__uint128_t` and wraps
modulo `2^128`. -/
def montgomery_reduce (t n n_inv : Nat) : Nat :=
  let m := t % W64 * n_inv % W64
  let u := (t % W128 + m * n) % W128 / W64
  if n ≤ u then u - n else u

/-- `montgomery_mul` (src/include/arith_montgomery.h). -/
def montgomery_mul (a b n n_inv : Nat) : Nat := montgomery_reduce (a * b) n n_inv

/-- `montgomery_r_squared` (src/include/arith_montgomery.h):
`r = 2^64 % n; return (__uint128_t)r * r % n`. -/
def montgomery_r_squared (n : Nat) : Nat := W64 % n * (W64 % n) % n

/-- The branchless exponentiation loop of `mr_witness_montgomery_safe`,
with state `(exp, x_m, base_m)`: each iteration computes
`temp = mul(x, base)`, selects `x := bit ? temp : x`, squares the base and
shifts the exponent. -/
def montPowLoop (n n_inv : Nat) : Nat → Nat → Nat → Nat
  | exp, x_m, base_m =>
    if _h : exp = 0 then x_m
    else
      montPowLoop n n_inv (exp / 2)
        (if exp % 2 = 1 then montgomery_mul x_m base_m n n_inv else x_m)
        (montgomery_mul base_m base_m n n_inv)
termination_by exp _ _ => exp
decreasing_by exact Nat.div_lt_self (Nat.pos_of_ne_zero _h) (by omega)

/-- The final squaring loop (`for (i = 1; i < r; i++)`) of
`mr_witness_montgomery_safe`, run with `count = r - 1`. -/
def sqLoopMont (n n_inv one_m neg_one_m : Nat) : Nat → Nat → Bool
  | _, 0 => false
  | x_m, count + 1 =>
    let y := montgomery_mul x_m x_m n n_inv
    if y = neg_one_m then true
    else if y = one_m then false
    else sqLoopMont n n_inv one_m neg_one_m y count

/-- `mr_witness_montgomery_safe` (src/include/arith_montgomery.h). -/
def mr_witness_montgomery_safe (n a n_inv r_sq : Nat) : Bool :=
  let a' := if n ≤ a then a % n else a
  if a' = 0 then true
  else
    let r := twoVal (n - 1)
    let d := (n - 1) >>> r
    let one_m := montgomery_reduce r_sq n n_inv
    let neg_one_m := n - one_m
    let a_m := montgomery_reduce (a' * r_sq) n n_inv
    let x_m := montPowLoop n n_inv d one_m a_m
    if x_m = one_m ∨ x_m = neg_one_m then true
    else sqLoopMont n n_inv one_m neg_one_m x_m (r - 1)

/-- The final squaring loop of `mr_witness_std`, run with `count = r - 1`. -/
def sqLoopStd (n : Nat) : Nat → Nat → Bool
  | _, 0 => false
  | x, count + 1 =>
    let y := mulmod64_std x x n
    if y = n - 1 then true
    else if y = 1 then false
    else sqLoopStd n y count

/-- `mr_witness_std` (src/include/arith_montgomery.h). -/
def mr_witness_std (n a : Nat) : Bool :=
  let a' := if n ≤ a then a % n else a
  if a' = 0 then true
  else
    let r := twoVal (n - 1)
    let d := (n - 1) >>> r
    let x := powmod64_std a' d n
    if x = 1 ∨ x = n - 1 then true
    else sqLoopStd n x (r - 1)

/-- `mr_witness_montgomery` (src/include/arith_montgomery.h): the hybrid
dispatch — Montgomery fast path for `n < 2^63`, wide-mulmod fallback
otherwise. -/
def mr_witness_montgomery (n a : Nat) : Bool :=
  if n < MONTGOMERY_SAFE_THRESHOLD then
    mr_witness_montgomery_safe n a (montgomery_inverse n) (montgomery_r_squared n)
  else mr_witness_std n a

/-- `fj64_hash` (src/include/prime.h): two xor-shift-multiply rounds in
`uint64_t` (the products wrap modulo `2^64`), then the low 18 bits. -/
def fj64_hash (x : Nat) : Nat :=
  let x1 := ((x >>> 32) ^^^ x) * 0x45d9f3b3335b369 % W64
  let x2 := ((x1 >>> 32) ^^^ x1) * 0x3335b36945d9f3b % W64
  ((x2 >>> 32) ^^^ x2) &&& 262143

/-- The `is_prime_fj64_fast` dispatch as *present* in src/include/prime.h:
two hybrid Miller-Rabin rounds, base 2 and the hashed base looked up in
the (absent, hence parameterized) table `fj64_bases`. -/
def is_prime_fj64_fast_dispatch (fj64_bases : Nat → Nat) (n : Nat) : Bool :=
  if ¬ mr_witness_montgomery n 2 then false
  else mr_witness_montgomery n (fj64_bases (fj64_hash n))

/-! ### Batched a-major verifier (src/include/batch_sieve.h)

The `BatchSieve` struct's per-index arrays are embedded as index-to-value
functions; the composite bitmap (packed into `uint64_t` words in C) is an
index-to-Bool function.  The statistics counters `mr_tests_saved` /
`mr_tests_done` are not referenced by any claim and are omitted. -/

/-- `BATCH_SMALL_PRIMES` (src/include/batch_sieve.h): the 154 sieving
primes up to 887. -/
def BATCH_SMALL_PRIMES : List Nat :=
  [2, 3, 5, 7, 11, 13, 17, 19, 23, 29, 31, 37, 41, 43, 47, 53, 59, 61, 67, 71,
   73, 79, 83, 89, 97, 101, 103, 107, 109, 113, 127, 131, 137, 139, 149, 151,
   157, 163, 167, 173, 179, 181, 191, 193, 197, 199, 211, 223, 227, 229, 233,
   239, 241, 251, 257, 263, 269, 271, 277, 281, 283, 293, 307, 311, 313, 317,
   331, 337, 347, 349, 353, 359, 367, 373, 379, 383, 389, 397, 401, 409, 419,
   421, 431, 433, 439, 443, 449, 457, 461, 463, 467, 479, 487, 491, 499, 503,
   509, 521, 523, 541, 547, 557, 563, 569, 571, 577, 587, 593, 599, 601, 607,
   613, 617, 619, 631, 641, 643, 647, 653, 659, 661, 673, 677, 683, 691, 701,
   709, 719, 727, 733, 739, 743, 751, 757, 761, 769, 773, 787, 797, 809, 811,
   821, 823, 827, 829, 839, 853, 857, 859, 863, 877, 881, 883, 887]

/-- The mutable state of a `BatchSieve` (solved flags, recorded solutions,
composite bitmap, solved counter). -/
structure BatchState where
  solved : Nat → Bool
  solA : Nat → Nat
  solP : Nat → Nat
  composite : Nat → Bool
  totalSolved : Nat

/-- The state after `batch_sieve_create` / `batch_sieve_reset`: `calloc`ed
(all-zero) result arrays and counter.  The composite bitmap is `malloc`ed
by `batch_sieve_create` and **not** cleared by `batch_sieve_reset`, so its
entry content is an arbitrary parameter `comp0`. -/
def batchInit (comp0 : Nat → Bool) : BatchState :=
  ⟨fun _ => false, fun _ => 0, fun _ => 0, comp0, 0⟩

/-- `batch_is_composite` (src/include/batch_sieve.h): out-of-range indices
read as composite. -/
def batch_is_composite (batch_size : Nat) (st : BatchState) (idx : Nat) : Bool :=
  if batch_size ≤ idx then true else st.composite idx

/-- The inner-loop search of `batch_sieve_for_a` for the modular inverse
of 4 mod q: `inv4 = 0; for (t = 0; t < q; t++) if ((4*t) % q == 1) { inv4 = t; break; }`. -/
def inv4_of (q : Nat) : Nat :=
  match (List.range q).find? (fun t => 4 * t % q == 1) with
  | some t => t
  | none => 0

/-- The marking loop of `batch_sieve_for_a` for one sieving prime `q`:
`for (idx = first_idx; idx < batch_size; idx += q)` — mark composite
unless the index is already solved or the candidate equals `q` itself. -/
def batchMark (batch_size p_start q : Nat) (st : BatchState) : BatchState :=
  (stepsUpto (inv4_of q * ((q - p_start % q) % q) % q) q batch_size).foldl
    (fun st idx =>
      if ¬ st.solved idx ∧ p_start + 4 * idx ≠ q then
        { st with composite := fun j => if j = idx then true else st.composite j }
      else st)
    st

/-- `batch_sieve_for_a` (src/include/batch_sieve.h).  If
`a^2 >= 8*n_start + 3` the function returns at once — in particular
*without* clearing the composite bitmap.  Otherwise it clears the bitmap
and sieves the progression `p_start + 4*idx` by each sieving prime
(skipping `q = 2`). -/
def batch_sieve_for_a (n_start batch_size : Nat) (st : BatchState) (a : Nat) : BatchState :=
  let a_sq := a * a % W64
  let N_start := (8 * n_start + 3) % W64
  if N_start ≤ a_sq then st
  else
    let p_start := (N_start - a_sq) / 2
    let st := { st with composite := fun _ => false }
    BATCH_SMALL_PRIMES.foldl
      (fun st q => if q = 2 then st else batchMark batch_size p_start q st) st

/-- `batch_check_remaining` (src/include/batch_sieve.h): for each index
not yet solved and not sieved out, compute `p = (8*(n_start+idx)+3 - a^2)/2`
and, if `p >= 2`, consult the oracle; record the solution on success. -/
def batch_check_remaining (n_start batch_size : Nat) (st : BatchState) (a : Nat) : BatchState :=
  let a_sq := a * a % W64
  (List.range batch_size).foldl
    (fun st idx =>
      if st.solved idx then st
      else if batch_is_composite batch_size st idx then st
      else
        let N := (8 * (n_start + idx) + 3) % W64
        if N ≤ a_sq then st
        else
          let p := (N - a_sq) / 2
          if p < 2 then st
          else if is_prime_fj64_fast p then
            { st with
              solved := fun j => if j = idx then true else st.solved j
              solA := fun j => if j = idx then a else st.solA j
              solP := fun j => if j = idx then p else st.solP j
              totalSolved := st.totalSolved + 1 }
          else st)
    st

/-- The `for (a = a_max; a >= 1; a -= 2)` loop of `batch_process`.  `a` is
`uint64_t`: the loop condition is `a != 0` and the decrement wraps modulo
`2^64`.  Fueled: `none` = the loop has not exited. -/
def batchLoop (n_start batch_size : Nat) : Nat → Nat → BatchState → Option BatchState
  | 0, _, _ => none
  | fuel + 1, a, st =>
    if a = 0 then some st
    else
      let st := batch_check_remaining n_start batch_size
        (batch_sieve_for_a n_start batch_size st a) a
      if batch_size ≤ st.totalSolved then some st
      else batchLoop n_start batch_size fuel ((a + (W64 - 2)) % W64) st

/-- `batch_process` (src/include/batch_sieve.h): compute
`a_max = isqrt64(8*(n_start + batch_size - 1) + 3)` made odd, then run the
descending a-loop.  `seed`/`isqrtFuel` parameterize the embedded
`isqrt64`, `fuel` the a-loop. -/
def batch_process (seed isqrtFuel fuel n_start batch_size : Nat) (st : BatchState) :
    Option BatchState :=
  match isqrt64 seed isqrtFuel ((8 * (n_start + batch_size - 1) + 3) % W64) with
  | none => none
  | some r => batchLoop n_start batch_size fuel (oddify r) st

/-! ### GPU batch driver (src/src/search_gpu.c)

The device (`metal_search_batch`) is an external collaborator; its output
array is modelled as an arbitrary input list of results. -/

/-- `GPUSearchResult` (src/metal/metal_host.h). -/
structure GPUSearchResult where
  n : Nat
  a : Nat
  p : Nat
  found : Nat

/-- `verify_counterexample_cpu` (src/src/search_gpu.c): re-run the CPU
per-n solver; `true` means the counterexample is CPU-confirmed.  Wrapped
in `Option` for the embedded solver's isqrt fuel. -/
def verify_counterexample_cpu (seed fuel n : Nat) : Option (Bool × Nat × Nat) :=
  match find_solution seed fuel n with
  | none => none
  | some (some (a, p)) => some (false, a, p)
  | some none => some (true, 0, 0)

/-- The CPU cross-verification loop of `run_gpu_search`
(src/src/search_gpu.c): every device result with `found == 0` is re-run
through the CPU solver; CPU-confirmed counterexamples are collected,
CPU-refuted ones are counted as GPU false positives.  `seeds`/`fuels`
supply the isqrt parameters of each embedded CPU solver call. -/
def gpu_verify_results (seeds fuels : Nat → Nat) :
    List GPUSearchResult → Option (List Nat × Nat)
  | [] => some ([], 0)
  | r :: rs =>
    if r.found = 0 then
      match verify_counterexample_cpu (seeds r.n) (fuels r.n) r.n with
      | none => none
      | some (true, _, _) =>
        match gpu_verify_results seeds fuels rs with
        | none => none
        | some (ces, fps) => some (r.n :: ces, fps)
      | some (false, _, _) =>
        match gpu_verify_results seeds fuels rs with
        | none => none
        | some (ces, fps) => some (ces, fps + 1)
    else gpu_verify_results seeds fuels rs

/-! ### Mod-30 wheel prime sieve (src/include/prime_sieve_fast.h)

The byte-packed bitmap is embedded as a bit-index-to-Bool function; byte
indices (`bit_idx >> 3`) are still computed for the segment-ownership
test.  Segments are processed sequentially here: in C they are processed
in parallel, but each segment writes only bytes it owns, so the sequential
order is observationally identical. -/

/-- `wheel30_residues` (src/include/prime_sieve_fast.h). -/
def wheel30_residues (i : Nat) : Nat := [1, 7, 11, 13, 17, 19, 23, 29].getD i 0

/-- `wheel30_index` (src/include/prime_sieve_fast.h); `255` (`0xFF`) marks
residues not coprime to 30. -/
def wheel30_index (r : Nat) : Nat :=
  [255, 0, 255, 255, 255, 255, 255, 1, 255, 255,
   255, 2, 255, 3, 255, 255, 255, 4, 255, 5,
   255, 255, 255, 6, 255, 255, 255, 255, 255, 7].getD r 255

/-- `wheel30_is_coprime` (src/include/prime_sieve_fast.h). -/
def wheel30_is_coprime (n : Nat) : Bool := wheel30_index (n % 30) ≠ 255

/-- `wheel30_bit_index` (src/include/prime_sieve_fast.h). -/
def wheel30_bit_index (n : Nat) : Nat := n / 30 * 8 + wheel30_index (n % 30)

/-- `wheel30_clear_bit`, on the functional bitmap. -/
def wheel30_clear_bit (bm : Nat → Bool) (bit_idx : Nat) : Nat → Bool :=
  fun j => if j = bit_idx then false else bm j

/-- The inner multiple-clearing loop of the small sequential sieve inside
`sieve_create`: `for (m = p*p; m <= sqrt_thresh; m += 2*p)`, skipping
values not coprime to 30. -/
def smallSieveClear (sqrt_thresh p : Nat) (bm : Nat → Bool) : Nat → Bool :=
  (stepsUpto (p * p) (2 * p) (sqrt_thresh + 1)).foldl
    (fun bm m => if wheel30_is_coprime m then wheel30_clear_bit bm (wheel30_bit_index m) else bm)
    bm

/-- The small sequential mod-30 sieve of `sieve_create`
(`for (p = 7; p <= sqrt_small; p += 2)` over an all-ones bitmap). -/
def smallSieve (sqrt_small sqrt_thresh : Nat) : Nat → Bool :=
  (stepsUpto 7 2 (sqrt_small + 1)).foldl
    (fun bm p =>
      if wheel30_is_coprime p then
        if bm (wheel30_bit_index p) then smallSieveClear sqrt_thresh p bm else bm
      else bm)
    (fun _ => true)

/-- The sieving-prime collection loop of `sieve_create`: all
`p = 30*block + wheel30_residues[i]` with `5 < p <= sqrt_thresh` whose bit
survives the small sieve, blocks and residues in ascending order. -/
def sievingPrimes (sqrt_small sqrt_thresh : Nat) : List Nat :=
  (List.range (sqrt_thresh / 30 + 1)).flatMap fun block =>
    (List.range 8).filterMap fun i =>
      let p := 30 * block + wheel30_residues i
      if 5 < p ∧ p ≤ sqrt_thresh ∧ smallSieve sqrt_small sqrt_thresh (block * 8 + i) then
        some p
      else none

/-- `SIEVE_SEGMENT_BYTES` (src/include/prime_sieve_fast.h). -/
def SIEVE_SEGMENT_BYTES : Nat := 64 * 1024

/-- The multiple-clearing loop of one sieving prime inside one segment of
`sieve_create`: `for (m = start; m <= n_end && m <= threshold; m += p)`,
clearing only bits whose byte lies inside the segment. -/
def segClear (threshold byte_start byte_end n_end p start : Nat) (bm : Nat → Bool) :
    Nat → Bool :=
  (stepsUpto start p (min n_end threshold + 1)).foldl
    (fun bm m =>
      if wheel30_is_coprime m then
        let bit_idx := wheel30_bit_index m
        let byte_idx := bit_idx / 8
        if byte_start ≤ byte_idx ∧ byte_idx < byte_end then wheel30_clear_bit bm bit_idx
        else bm
      else bm)
    bm

/-- One segment of the parallel sieve of `sieve_create`: apply each
sieving prime (stopping at the first with `p*p > n_end` — the C `break`)
from its first multiple `>= max(p*p, n_start)`. -/
def segSieve (threshold : Nat) (primes : List Nat) (num_bytes seg : Nat) (bm : Nat → Bool) :
    Nat → Bool :=
  let byte_start := seg * SIEVE_SEGMENT_BYTES
  let byte_end := min (byte_start + SIEVE_SEGMENT_BYTES) num_bytes
  let n_start := byte_start * 30
  let n_end := min ((byte_end + 1) * 30) threshold
  (primes.takeWhile fun p => p * p ≤ n_end).foldl
    (fun bm p =>
      let start := if p * p < n_start then (n_start + p - 1) / p * p else p * p
      segClear threshold byte_start byte_end n_end p start bm)
    bm

/-- The sieve structure (`PrimeSieve`): bitmap and threshold.  (`num_bytes`
is recomputed from the threshold; the lazy `prime_count` cache is not
referenced by any claim.) -/
structure PrimeSieve where
  bitmap : Nat → Bool
  threshold : Nat

/-- `sieve_create` (src/include/prime_sieve_fast.h).  The two
floating-point square roots `(uint64_t)sqrt((double)threshold)` and
`(uint64_t)sqrt((double)sqrt_thresh)` are modelled by the parameters `s1`
and `s2` (the code adds 1 to each). -/
def sieve_create (s1 s2 threshold0 : Nat) : PrimeSieve :=
  let threshold := if threshold0 < 2 then 2 else threshold0
  let sqrt_thresh := s1 + 1
  let sqrt_small := s2 + 1
  let num_bytes := threshold / 30 + 1
  let primes := sievingPrimes sqrt_small sqrt_thresh
  let num_segments := (num_bytes + SIEVE_SEGMENT_BYTES - 1) / SIEVE_SEGMENT_BYTES
  let bitmap := (List.range num_segments).foldl
    (fun bm seg => segSieve threshold primes num_bytes seg bm) (fun _ => true)
  ⟨bitmap, threshold⟩

/-- `sieve_is_prime` (src/include/prime_sieve_fast.h). -/
def sieve_is_prime (sieve : PrimeSieve) (n : Nat) : Bool :=
  if sieve.threshold < n then false
  else if n < 2 then false
  else if n = 2 ∨ n = 3 ∨ n = 5 then true
  else if n % 2 = 0 then false
  else if n % 3 = 0 then false
  else if n % 5 = 0 then false
  else sieve.bitmap (wheel30_bit_index n)

/-! ### Specification-side reference definitions

These are *not* translations of source functions: they are the
mathematical descriptions the claims compare the source against. -/

/-- The largest odd number whose square does not exceed `N` (`a_max` of
the spec), for `N ≥ 1`. -/
def oddSqrtSpec (N : Nat) : Nat :=
  if Nat.sqrt N % 2 = 0 then Nat.sqrt N - 1 else Nat.sqrt N

/-- Reference descent: the first odd `a' ≤ a` (descending by 2) whose
candidate `p = (N - a'^2)/2` is at least 2 and prime, with that `p`
(structural recursion in the style of `findWalkWith`). -/
def solveFrom (N : Nat) : Nat → Option (Nat × Nat)
  | 0 => if 2 ≤ (N - 0 * 0) / 2 ∧ is_prime_fj64_fast ((N - 0 * 0) / 2) then some (0, (N - 0 * 0) / 2) else none
  | 1 => if 2 ≤ (N - 1 * 1) / 2 ∧ is_prime_fj64_fast ((N - 1 * 1) / 2) then some (1, (N - 1 * 1) / 2) else none
  | 2 => if 2 ≤ (N - 2 * 2) / 2 ∧ is_prime_fj64_fast ((N - 2 * 2) / 2) then some (2, (N - 2 * 2) / 2) else none
  | a + 3 =>
    if 2 ≤ (N - (a + 3) * (a + 3)) / 2 ∧ is_prime_fj64_fast ((N - (a + 3) * (a + 3)) / 2) then
      some (a + 3, (N - (a + 3) * (a + 3)) / 2)
    else solveFrom N (a + 1)

/-- The claim C2 oracle reference: a trivial trial-division primality
test (`n ≥ 2` and no divisor `d` with `2 ≤ d < n`). -/
def trialDivisionIsPrimeSpec (n : Nat) : Bool :=
  decide (2 ≤ n ∧ ∀ d < n, 2 ≤ d → ¬ d ∣ n)

/-- The state `(a, candidate, delta)` of the solver's walk after `k`
update steps `candidate += delta; delta -= 4; a -= 2` from the
initialization of `find_solution_from_N` (uint64 arithmetic). -/
def walkState (N a_max : Nat) : Nat → Nat × Nat × Nat
  | 0 => (a_max, sub64 (N % W64) (a_max * a_max) / 2, 2 * (a_max - 1) % W64)
  | k + 1 =>
    let s := walkState N a_max k
    (s.1 - 2, (s.2.1 + s.2.2) % W64, (s.2.2 + (W64 - 4)) % W64)

/-! ## Theorems -/

/-! ### Generic helpers -/

theorem W64_pos : 0 < W64 := by norm_num [W64]

theorem mem_stepsUptoF {step : Nat} (hstep : 0 < step) :
    ∀ (fuel start bound x : Nat), bound - start ≤ fuel →
      (x ∈ stepsUptoF step fuel start bound ↔ ∃ k, x = start + k * step ∧ x < bound) := by
  intro fuel
  induction fuel with
  | zero =>
    intro start bound x hm
    simp only [stepsUptoF, List.not_mem_nil, false_iff]
    rintro ⟨k, rfl, hk⟩
    omega
  | succ m ih =>
    intro start bound x hm
    simp only [stepsUptoF]
    by_cases hlt : start < bound
    · simp only [hlt, hstep, and_true, if_true, List.mem_cons]
      rw [ih (start + step) bound x (by omega)]
      constructor
      · rintro (rfl | ⟨k, rfl, hk⟩)
        · exact ⟨0, by simp, hlt⟩
        · exact ⟨k + 1, by ring, by omega⟩
      · rintro ⟨k, rfl, hk⟩
        cases k with
        | zero => left; simp
        | succ k => right; exact ⟨k, by ring, by omega⟩
    · simp only [hlt, false_and, if_false, List.not_mem_nil, false_iff]
      rintro ⟨k, rfl, hk⟩
      omega

theorem mem_stepsUpto {step : Nat} (hstep : 0 < step) {start bound x : Nat} :
    x ∈ stepsUpto start step bound ↔ ∃ k, x = start + k * step ∧ x < bound :=
  mem_stepsUptoF hstep (bound - start) start bound x le_rfl

/-- `foldl` preserves an invariant preserved by each step. -/
theorem foldl_invariant {α β : Type} (P : α → Prop) (f : α → β → α) (l : List β) (init : α)
    (h0 : P init) (hstep : ∀ a b, b ∈ l → P a → P (f a b)) : P (l.foldl f init) := by
  induction l generalizing init with
  | nil => exact h0
  | cons x xs ih =>
    exact ih (f init x) (hstep init x (by simp) h0) fun a b hb => hstep a b (by simp [hb])

theorem W64_lit : W64 = 18446744073709551616 := by norm_num [W64]

/-- An odd square reduced modulo `2^64` is odd. -/
theorem odd_sq_mod_W64 {a : Nat} (ha : a % 2 = 1) : a * a % W64 % 2 = 1 := by
  have h2 : 2 ∣ W64 := by norm_num [W64]
  rw [Nat.mod_mod_of_dvd _ h2, Nat.mul_mod, ha]

/-- A number whose square is below `2^64` is below `2^32`. -/
theorem lt_two32_of_sq_lt {a : Nat} (h : a * a < W64) : a < 2 ^ 32 := by
  by_contra hge
  push_neg at hge
  have h2 : 2 ^ 32 * 2 ^ 32 ≤ a * a := Nat.mul_le_mul hge hge
  have hW : W64 = 2 ^ 32 * 2 ^ 32 := by norm_num [W64]
  omega

/-! ### C7: the solver's incremental walk invariant -/

/-- C7 : Throughout the solver's downward walk (initialized with
`a = a_max`, `candidate = (N - a_max^2)/2`, `delta = 2*(a_max - 1)`, and
updated by `candidate += delta; delta -= 4; a -= 2`), the invariant
`candidate = (N - a^2)/2` holds at every iteration (and `delta = 2*(a-1)`,
`a = a_max - 2k`), for every `N = 8n + 3` (fitting in `uint64_t`) and odd
`a_max` with `a_max^2 <= N`; moreover `find_solution_from_N` is exactly
the walk run from this initial state. -/
theorem C7_solver_walk_invariant (n a_max k : Nat)
    (hN : 8 * n + 3 < W64) (hodd : a_max % 2 = 1) (hsq : a_max * a_max ≤ 8 * n + 3)
    (hk : 2 * k ≤ a_max - 1) :
    walkState (8 * n + 3) a_max k =
      (a_max - 2 * k, (8 * n + 3 - (a_max - 2 * k) * (a_max - 2 * k)) / 2,
        2 * (a_max - 2 * k - 1)) ∧
    find_solution_from_N (8 * n + 3) a_max =
      findWalkWith is_candidate_prime (walkState (8 * n + 3) a_max 0).1
        (walkState (8 * n + 3) a_max 0).2.1 (walkState (8 * n + 3) a_max 0).2.2 := by
  have hsmall : a_max < 2 ^ 32 := lt_two32_of_sq_lt (by omega)
  rw [W64_lit] at hN
  refine ⟨?_, rfl⟩
  induction k with
  | zero =>
    simp only [walkState, Nat.mul_zero, Nat.sub_zero]
    have h1 : (8 * n + 3) % W64 = 8 * n + 3 := Nat.mod_eq_of_lt (by rw [W64_lit]; omega)
    have h2 : a_max * a_max % W64 = a_max * a_max := Nat.mod_eq_of_lt (by rw [W64_lit]; omega)
    rw [h1, sub64, h2, W64_lit]
    have h4 : (8 * n + 3 + 18446744073709551616 - a_max * a_max) % 18446744073709551616 =
        8 * n + 3 - a_max * a_max := by omega
    rw [h4]
    have h5 : 2 * (a_max - 1) % 18446744073709551616 = 2 * (a_max - 1) := by omega
    rw [h5]
  | succ k ihk =>
    have hk' : 2 * k ≤ a_max - 1 := by omega
    rw [walkState, ihk hk']
    set a := a_max - 2 * k with ha
    have ha3 : 3 ≤ a := by omega
    have haodd : a % 2 = 1 := by omega
    have hasq : a * a ≤ a_max * a_max := Nat.mul_le_mul (by omega) (by omega)
    have hsub : a_max - 2 * (k + 1) = a - 2 := by omega
    rw [hsub]
    have hexp : (a - 2) * (a - 2) + 4 * a = a * a + 4 := by
      have h := Nat.sub_add_cancel (show 2 ≤ a by omega)
      nlinarith [h]
    have heven : a * a % 2 = 1 := by rw [Nat.mul_mod, haodd]
    simp only [W64_lit]
    refine Prod.ext rfl (Prod.ext ?_ ?_) <;> simp only <;> omega

theorem C7_solver_walk_invariant_witness :
    walkState (8 * 4 + 3) 5 1 =
      (5 - 2 * 1, (8 * 4 + 3 - (5 - 2 * 1) * (5 - 2 * 1)) / 2, 2 * (5 - 2 * 1 - 1)) ∧
    find_solution_from_N (8 * 4 + 3) 5 =
      findWalkWith is_candidate_prime (walkState (8 * 4 + 3) 5 0).1
        (walkState (8 * 4 + 3) 5 0).2.1 (walkState (8 * 4 + 3) 5 0).2.2 :=
  C7_solver_walk_invariant 4 5 1 (by norm_num [W64]) (by norm_num) (by norm_num) (by norm_num)

/-! ### The solver's walk as a single equation -/

theorem findWalkWith_eq (test : Nat → Bool) (a c d : Nat) :
    findWalkWith test a c d =
      if 2 ≤ c ∧ test c = true then some (a, c)
      else if a < 3 then none
      else findWalkWith test (a - 2) ((c + d) % W64) ((d + (W64 - 4)) % W64) := by
  match a with
  | 0 => simp [findWalkWith]
  | 1 => simp [findWalkWith]
  | 2 => simp [findWalkWith]
  | a + 3 =>
    have h3 : ¬(a + 3 < 3) := by omega
    have h2 : a + 3 - 2 = a + 1 := by omega
    simp only [findWalkWith, h3, if_false, h2]

/-! ### C10: the candidate tester at the public interface -/

/-- C10 : `is_candidate_prime` is not a total primality predicate: it
returns `true` on input 1.  However (i) the solver's walk only consults
the tester on candidates `>= 2` — replacing the tester by any function
agreeing with it on `[2, ∞)` leaves the walk unchanged; (ii) any solution
the walk returns has `p >= 2`; and (iii) `batch_check_remaining` skips
`p < 2`, so every recorded batch solution also has `p >= 2`. -/
theorem C10_candidate_tester_guarded :
    is_candidate_prime 1 = true ∧
    (∀ test1 test2 : Nat → Bool, (∀ c, 2 ≤ c → test1 c = test2 c) →
      ∀ a c d, findWalkWith test1 a c d = findWalkWith test2 a c d) ∧
    (∀ (test : Nat → Bool) (a c d : Nat) (r : Nat × Nat),
      findWalkWith test a c d = some r → 2 ≤ r.2) ∧
    (∀ n_start bsz (st : BatchState) (a : Nat),
      (∀ i, st.solved i = true → 2 ≤ st.solP i) →
      ∀ i, (batch_check_remaining n_start bsz st a).solved i = true →
        2 ≤ (batch_check_remaining n_start bsz st a).solP i) := by
  refine ⟨by decide, ?_, ?_, ?_⟩
  · intro t1 t2 h a
    induction a using Nat.strong_induction_on with
    | _ a ih =>
      intro c d
      rw [findWalkWith_eq t1, findWalkWith_eq t2]
      have e1 : (2 ≤ c ∧ t1 c = true) ↔ (2 ≤ c ∧ t2 c = true) :=
        and_congr_right fun hx => by rw [h c hx]
      by_cases hcc : 2 ≤ c ∧ t2 c = true
      · rw [if_pos (e1.mpr hcc), if_pos hcc]
      · rw [if_neg (fun hh => hcc (e1.mp hh)), if_neg hcc]
        by_cases ha : a < 3
        · rw [if_pos ha, if_pos ha]
        · rw [if_neg ha, if_neg ha]
          exact ih (a - 2) (by omega) _ _
  · intro test a
    induction a using Nat.strong_induction_on with
    | _ a ih =>
      intro c d r hr
      rw [findWalkWith_eq] at hr
      split_ifs at hr with hc ha
      · rw [Option.some.injEq] at hr
        subst hr
        exact hc.1
      · exact ih (a - 2) (by omega) _ _ _ hr
  · intro n_start bsz st a hinv
    refine foldl_invariant (fun st : BatchState => ∀ i, st.solved i = true → 2 ≤ st.solP i)
      _ (List.range bsz) st hinv ?_
    intro st' idx _ hst'
    simp only
    split_ifs with h1 h2 h3 h4 h5
    · exact hst'
    · exact hst'
    · exact hst'
    · exact hst'
    · intro i
      simp only
      by_cases hi : i = idx
      · subst hi
        intro
        rw [if_pos rfl]
        omega
      · rw [if_neg hi, if_neg hi]
        exact hst' i
    · exact hst'

theorem C10_candidate_tester_guarded_witness :
    2 ≤ ((1, 13) : Nat × Nat).2 ∧
    2 ≤ (batch_check_remaining 1 1 (batchInit fun _ => false) 1).solP 0 :=
  ⟨C10_candidate_tester_guarded.2.2.1 is_candidate_prime 1 13 0 (1, 13) (by decide),
   C10_candidate_tester_guarded.2.2.2 1 1 (batchInit fun _ => false) 1
     (fun i h => by simp [batchInit] at h) 0 (by decide)⟩

/-! ### C4 / C1: the isqrt64 correction loop wraps near 2^64 -/

theorem isqrtUp_stop {n : Nat} :
    ∀ {fuel x r : Nat}, isqrtUp n fuel x = some r → n < (r + 1) * (r + 1) % W64 := by
  intro fuel
  induction fuel with
  | zero => intro x r h; exact Option.noConfusion h
  | succ f ih =>
    intro x r h
    rw [isqrtUp] at h
    by_cases hc : (x + 1) * (x + 1) % W64 ≤ n
    · rw [if_pos hc] at h
      exact ih h
    · rw [if_neg hc] at h
      rw [Option.some.injEq] at h
      subst h
      omega

theorem isqrtUp_lt_W64 {n : Nat} :
    ∀ {fuel x r : Nat}, isqrtUp n fuel x = some r → x < W64 → r < W64 := by
  intro fuel
  induction fuel with
  | zero => intro x r h _; exact Option.noConfusion h
  | succ f ih =>
    intro x r h hx
    rw [isqrtUp] at h
    by_cases hc : (x + 1) * (x + 1) % W64 ≤ n
    · rw [if_pos hc] at h
      exact ih h (Nat.mod_lt _ W64_pos)
    · rw [if_neg hc] at h
      rw [Option.some.injEq] at h
      omega

theorem isqrtDown_le {n : Nat} :
    ∀ {fuel x r : Nat}, isqrtDown n fuel x = some r → r ≤ x := by
  intro fuel
  induction fuel with
  | zero => intro x r h; exact Option.noConfusion h
  | succ f ih =>
    intro x r h
    rw [isqrtDown] at h
    by_cases hc : 0 < x ∧ n < x * x % W64
    · rw [if_pos hc] at h
      exact le_trans (ih h) (by omega)
    · rw [if_neg hc] at h
      rw [Option.some.injEq] at h
      omega

/-- Whenever the embedded `isqrt64` returns on an input
`n >= (2^32 - 1)^2`, the returned value exceeds `2^32`, for every seed. -/
theorem isqrt64_result_large {n : Nat} (hn : 4294967295 * 4294967295 ≤ n)
    (hn64 : n < W64) {seed fuel r : Nat}
    (h : isqrt64 seed fuel n = some r) : 4294967296 < r ∧ r < W64 := by
  rw [isqrt64] at h
  rw [if_neg (by omega)] at h
  cases hd : isqrtDown n fuel (seed % W64) with
  | none => rw [hd] at h; exact Option.noConfusion h
  | some x =>
    rw [hd] at h
    have hxW : x < W64 := lt_of_le_of_lt (isqrtDown_le hd) (Nat.mod_lt _ W64_pos)
    refine ⟨?_, isqrtUp_lt_W64 h hxW⟩
    have hstop := isqrtUp_stop h
    by_contra hle
    push_neg at hle
    rcases Nat.lt_or_ge r 4294967295 with hr | hr
    · have h1 : (r + 1) * (r + 1) ≤ 4294967295 * 4294967295 :=
        Nat.mul_le_mul (by omega) (by omega)
      have h2 : (r + 1) * (r + 1) % W64 = (r + 1) * (r + 1) :=
        Nat.mod_eq_of_lt (by omega)
      omega
    · rcases Nat.lt_or_ge r 4294967296 with hr2 | hr2
      · have hre : r = 4294967295 := by omega
        subst hre
        rw [show (4294967295 + 1) * (4294967295 + 1) % W64 = 0 by norm_num [W64]] at hstop
        omega
      · have hre : r = 4294967296 := by omega
        subst hre
        rw [show (4294967296 + 1) * (4294967296 + 1) % W64 = 8589934593 by
          norm_num [W64]] at hstop
        have : 4294967295 * 4294967295 ≤ n := hn
        omega

/-- C4 : `isqrt64` is *not* exact near `2^64`: at
`n = (2^32 - 1)^2 = 18446744065119617025` (whose floor square root is
`2^32 - 1 = 4294967295`), for every floating-point seed and every amount
of loop fuel, the function either has not terminated (`none`) or returns
a value exceeding `2^32` — never `floor(sqrt n)`: the up-correction
loop's `(x+1)*(x+1)` wraps to 0 at `x + 1 = 2^32` and the loop runs past
`2^32`. -/
theorem C4_isqrt64_wraps_at_edge (seed fuel : Nat) :
    (isqrt64 seed fuel 18446744065119617025).all (fun r => decide (4294967296 < r)) = true := by
  cases h : isqrt64 seed fuel 18446744065119617025 with
  | none => rfl
  | some r =>
    have := isqrt64_result_large (by norm_num)
      (by norm_num [W64]) h
    simp [Option.all, this.1]

/-- C1 : at `n = 2305843008139952128` (within the spec's valid range
`n < 2^61`; `N = 8n + 3 = 18446744065119617027` fits in 64 bits), the
`a_max` computed by `find_solution` from `isqrt64(N)` — whenever the
embedded loop terminates at all — exceeds `2^32`, although the largest
odd `a` with `a^2 <= N` is `2^32 - 1 = 4294967295`; its exact square
`a_max^2` then exceeds `N`, so the walk's initial `N - a_max * a_max`
wraps and the returned pair cannot satisfy the claimed contract. -/
theorem C1_find_solution_amax_broken (seed fuel : Nat) :
    find_solution seed fuel 2305843008139952128 =
      (isqrt64 seed fuel ((8 * 2305843008139952128 + 3) % W64)).map
        (fun r => find_solution_from_N ((8 * 2305843008139952128 + 3) % W64) (oddify r)) ∧
    oddSqrtSpec (8 * 2305843008139952128 + 3) = 4294967295 ∧
    (isqrt64 seed fuel ((8 * 2305843008139952128 + 3) % W64)).all
      (fun r => decide (4294967296 < oddify r ∧
        8 * 2305843008139952128 + 3 < oddify r * oddify r)) = true := by
  refine ⟨?_, ?_, ?_⟩
  · rw [find_solution]
    cases h : isqrt64 seed fuel ((8 * 2305843008139952128 + 3) % W64) <;> simp
  · have hs : Nat.sqrt (8 * 2305843008139952128 + 3) = 4294967295 := by
      have h1 : 4294967295 ≤ Nat.sqrt (8 * 2305843008139952128 + 3) :=
        Nat.le_sqrt.mpr (by norm_num)
      have h2 : Nat.sqrt (8 * 2305843008139952128 + 3) < 4294967296 :=
        Nat.sqrt_lt.mpr (by norm_num)
      omega
    rw [oddSqrtSpec, hs]
    norm_num
  · have hmod : (8 * 2305843008139952128 + 3) % W64 = 18446744065119617027 := by
      norm_num [W64]
    rw [hmod]
    cases h : isqrt64 seed fuel 18446744065119617027 with
    | none => rfl
    | some r =>
      have hlarge := isqrt64_result_large (by norm_num)
        (by norm_num [W64]) h
      have hodd : 4294967296 < oddify r := by
        rw [oddify]
        by_cases hpar : r % 2 = 0
        · rw [if_pos hpar]
          have : r + (W64 - 1) = (r - 1) + W64 := by omega
          rw [this, Nat.add_mod_right, Nat.mod_eq_of_lt (by omega)]
          omega
        · rw [if_neg hpar]
          omega
      have hsq : 8 * 2305843008139952128 + 3 < oddify r * oddify r := by
        have : 4294967297 * 4294967297 ≤ oddify r * oddify r :=
          Nat.mul_le_mul (by omega) (by omega)
        omega
      simp [Option.all, hodd, hsq]

/-! ### C2: the oracle model against trivial trial division -/

theorem is_prime_fj64_fast_iff (n : Nat) : is_prime_fj64_fast n = true ↔ Nat.Prime n := by
  simp only [is_prime_fj64_fast, Bool.and_eq_true, decide_eq_true_eq, List.all_eq_true,
    List.mem_range, Bool.or_eq_true]
  rw [Nat.prime_def_lt]
  constructor
  · rintro ⟨h2, hall⟩
    refine ⟨h2, fun m hm hdvd => ?_⟩
    rcases hall m hm with h1 | h1
    · interval_cases m
      · exact absurd (Nat.eq_zero_of_zero_dvd hdvd) (by omega)
      · rfl
    · obtain ⟨c, rfl⟩ := hdvd
      exact absurd (Nat.mul_mod_right m c) h1
  · rintro ⟨h2, hall⟩
    refine ⟨h2, fun d hd => ?_⟩
    by_cases hd1 : d ≤ 1
    · exact Or.inl hd1
    · refine Or.inr fun hmod => ?_
      have hdvd : d ∣ n := Nat.dvd_of_mod_eq_zero hmod
      have := hall d hd hdvd
      omega

theorem trialDivisionIsPrimeSpec_iff (n : Nat) :
    trialDivisionIsPrimeSpec n = true ↔ Nat.Prime n := by
  simp only [trialDivisionIsPrimeSpec, decide_eq_true_eq]
  rw [Nat.prime_def_lt]
  constructor
  · rintro ⟨h2, hall⟩
    refine ⟨h2, fun m hm hdvd => ?_⟩
    by_cases hm2 : 2 ≤ m
    · exact absurd hdvd (hall m hm hm2)
    · interval_cases m
      · exact absurd (Nat.eq_zero_of_zero_dvd hdvd) (by omega)
      · rfl
  · rintro ⟨h2, hall⟩
    exact ⟨h2, fun d hd hd2 hdvd => by have := hall d hd hdvd; omega⟩

/-! ### C9: GPU results are CPU cross-verified -/

theorem verify_counterexample_cpu_true {seed fuel n a p : Nat}
    (h : verify_counterexample_cpu seed fuel n = some (true, a, p)) :
    find_solution seed fuel n = some none := by
  rw [verify_counterexample_cpu] at h
  cases hf : find_solution seed fuel n with
  | none => rw [hf] at h; exact Option.noConfusion h
  | some o =>
    cases o with
    | none => rfl
    | some ap =>
      rw [hf] at h
      obtain ⟨a', p'⟩ := ap
      simp at h

/-- C9 : In the GPU batch driver's verification loop, an `n` is never
collected as a counterexample unless the CPU per-n solver also finds no
solution: whenever the loop completes with output `(ces, fps)`, every
`n ∈ ces` came from a device result with `found = 0` **and** satisfies
`find_solution n = 0` on the CPU; device false negatives are diverted to
the `fps` count instead. -/
theorem C9_gpu_counterexamples_cpu_confirmed (seeds fuels : Nat → Nat) :
    ∀ (results : List GPUSearchResult) (ces : List Nat) (fps : Nat),
      gpu_verify_results seeds fuels results = some (ces, fps) →
      ∀ n ∈ ces, (∃ r ∈ results, r.n = n ∧ r.found = 0) ∧
        find_solution (seeds n) (fuels n) n = some none := by
  intro results
  induction results with
  | nil =>
    intro ces fps h n hn
    rw [gpu_verify_results] at h
    rw [Option.some.injEq] at h
    cases h
    simp at hn
  | cons r rs ih =>
    intro ces fps h n hn
    rw [gpu_verify_results] at h
    by_cases hf : r.found = 0
    · rw [if_pos hf] at h
      cases hv : verify_counterexample_cpu (seeds r.n) (fuels r.n) r.n with
      | none => rw [hv] at h; exact Option.noConfusion h
      | some res =>
        rw [hv] at h
        obtain ⟨b, a, p⟩ := res
        cases b with
        | true =>
          cases hrec : gpu_verify_results seeds fuels rs with
          | none => rw [hrec] at h; exact Option.noConfusion h
          | some out =>
            rw [hrec] at h
            obtain ⟨ces', fps'⟩ := out
            rw [Option.some.injEq, Prod.mk.injEq] at h
            obtain ⟨hces, -⟩ := h
            subst hces
            rcases List.mem_cons.mp hn with rfl | hn'
            · exact ⟨⟨r, by simp, rfl, hf⟩, verify_counterexample_cpu_true hv⟩
            · obtain ⟨⟨r', hr', hrn, hrf⟩, hfs⟩ := ih ces' fps' hrec n hn'
              exact ⟨⟨r', by simp [hr'], hrn, hrf⟩, hfs⟩
        | false =>
          cases hrec : gpu_verify_results seeds fuels rs with
          | none => rw [hrec] at h; exact Option.noConfusion h
          | some out =>
            rw [hrec] at h
            obtain ⟨ces', fps'⟩ := out
            rw [Option.some.injEq, Prod.mk.injEq] at h
            obtain ⟨hces, -⟩ := h
            subst hces
            obtain ⟨⟨r', hr', hrn, hrf⟩, hfs⟩ := ih ces' fps' hrec n hn
            exact ⟨⟨r', by simp [hr'], hrn, hrf⟩, hfs⟩
    · rw [if_neg hf] at h
      obtain ⟨⟨r', hr', hrn, hrf⟩, hfs⟩ := ih ces fps h n hn
      exact ⟨⟨r', by simp [hr'], hrn, hrf⟩, hfs⟩

theorem C9_gpu_counterexamples_cpu_confirmed_witness :
    (∃ r ∈ [(⟨0, 0, 0, 0⟩ : GPUSearchResult)], r.n = 0 ∧ r.found = 0) ∧
      find_solution 1 3 0 = some none :=
  C9_gpu_counterexamples_cpu_confirmed (fun _ => 1) (fun _ => 3)
    [⟨0, 0, 0, 0⟩] [0] 0 (by decide) 0 (by decide)

/-! ### C8: the batched a-loop wraps instead of stopping at a = 1 -/

theorem batchMark_preserves (bsz p q : Nat) (st : BatchState) :
    (batchMark bsz p q st).solved = st.solved ∧ (batchMark bsz p q st).solA = st.solA ∧
    (batchMark bsz p q st).solP = st.solP ∧
    (batchMark bsz p q st).totalSolved = st.totalSolved := by
  refine foldl_invariant
    (fun st' : BatchState => st'.solved = st.solved ∧ st'.solA = st.solA ∧
      st'.solP = st.solP ∧ st'.totalSolved = st.totalSolved)
    _ _ st ⟨rfl, rfl, rfl, rfl⟩ ?_
  intro st' idx _ h
  split_ifs
  · exact h
  · exact h

theorem batch_sieve_for_a_preserves (n_start bsz : Nat) (st : BatchState) (a : Nat) :
    (batch_sieve_for_a n_start bsz st a).solved = st.solved ∧
    (batch_sieve_for_a n_start bsz st a).solA = st.solA ∧
    (batch_sieve_for_a n_start bsz st a).solP = st.solP ∧
    (batch_sieve_for_a n_start bsz st a).totalSolved = st.totalSolved := by
  rw [batch_sieve_for_a]
  split_ifs
  · exact ⟨rfl, rfl, rfl, rfl⟩
  · refine foldl_invariant
      (fun st' : BatchState => st'.solved = st.solved ∧ st'.solA = st.solA ∧
        st'.solP = st.solP ∧ st'.totalSolved = st.totalSolved)
      _ _ _ ⟨rfl, rfl, rfl, rfl⟩ ?_
    intro st' q _ h
    by_cases hq : q = 2
    · rw [if_pos hq]
      exact h
    · rw [if_neg hq]
      obtain ⟨h1, h2, h3, h4⟩ := batchMark_preserves bsz _ q st'
      exact ⟨h1.trans h.1, h2.trans h.2.1, h3.trans h.2.2.1, h4.trans h.2.2.2⟩

theorem c8_check_step (a : Nat) (ha : a % 2 = 1) (st : BatchState)
    (h0 : st.solved 0 = false) (ht : st.totalSolved = 0) :
    (batch_check_remaining 0 1 st a).solved 0 = false ∧
    (batch_check_remaining 0 1 st a).totalSolved = 0 := by
  rw [batch_check_remaining]
  have hr1 : List.range 1 = [0] := rfl
  rw [hr1]
  simp only [List.foldl_cons, List.foldl_nil, h0]
  rw [if_neg (by simp)]
  by_cases hcomp : batch_is_composite 1 st 0 = true
  · rw [if_pos hcomp]
    exact ⟨h0, ht⟩
  · rw [if_neg hcomp]
    have hN : (8 * (0 + 0) + 3) % W64 = 3 := by norm_num [W64]
    rw [hN]
    by_cases hsq : 3 ≤ a * a % W64
    · rw [if_pos hsq]
      exact ⟨h0, ht⟩
    · rw [if_neg hsq]
      have hodd := odd_sq_mod_W64 ha
      have h1 : a * a % W64 = 1 := by omega
      rw [h1]
      norm_num
      exact ⟨h0, ht⟩

theorem oddify_odd (r : Nat) : oddify r % 2 = 1 := by
  rw [oddify]
  have h2 : 2 ∣ W64 := by norm_num [W64]
  have hW := W64_lit
  by_cases hr : r % 2 = 0
  · rw [if_pos hr, Nat.mod_mod_of_dvd _ h2]
    omega
  · rw [if_neg hr]
    omega

theorem batchLoop_diverges :
    ∀ (fuel a : Nat), a % 2 = 1 → ∀ st : BatchState, st.solved 0 = false →
      st.totalSolved = 0 → batchLoop 0 1 fuel a st = none := by
  intro fuel
  induction fuel with
  | zero => intro a _ st _ _; rfl
  | succ f ih =>
    intro a ha st h0 ht
    rw [batchLoop]
    rw [if_neg (by omega)]
    obtain ⟨hs1, -, -, hs4⟩ := batch_sieve_for_a_preserves 0 1 st a
    have hstep := c8_check_step a ha (batch_sieve_for_a 0 1 st a)
      (by rw [hs1]; exact h0) (by rw [hs4]; exact ht)
    rw [if_neg (by omega)]
    refine ih _ ?_ _ hstep.1 hstep.2
    have h2 : 2 ∣ W64 := by norm_num [W64]
    rw [Nat.mod_mod_of_dvd _ h2]
    have hW := W64_lit
    omega

/-- C8 : `batch_process` need *not* terminate: on the batch
`n_start = 0, batch_size = 1` (N = 3, whose only candidate is `p = 1` at
every odd `a`, so index 0 is never solved) the a-loop never exits — the
`uint64_t` loop counter is always odd, so the condition `a >= 1` never
fails, and after `a = 1` the decrement wraps to `2^64 - 1` — for every
seed, isqrt fuel, loop fuel, and every entry content of the (uncleared)
composite bitmap. -/
theorem C8_batch_process_nontermination (seed isqrtFuel fuel : Nat) (comp0 : Nat → Bool) :
    batch_process seed isqrtFuel fuel 0 1 (batchInit comp0) = none := by
  rw [batch_process]
  cases hr : isqrt64 seed isqrtFuel ((8 * (0 + 1 - 1) + 3) % W64) with
  | none => rfl
  | some r => exact batchLoop_diverges fuel (oddify r) (oddify_odd r) _ rfl rfl

/-! ### C5: the hybrid Montgomery witness equals the wide-mulmod witness

The proof works over `ZMod W64` for the Newton inverse and over `Nat.ModEq`
for the reduction and exponentiation correspondence. -/

theorem W128_eq : W128 = W64 * W64 := by norm_num [W64, W128]

theorem coprime_W64 {n : Nat} (hodd : n % 2 = 1) : Nat.Coprime W64 n := by
  rw [W64]
  exact Nat.Coprime.pow_left _
    (Nat.Prime.coprime_iff_not_dvd Nat.prime_two |>.mpr (by omega))

theorem minvStep_cast (n x : Nat) :
    ((minvStep n x : Nat) : ZMod W64) =
      (x : ZMod W64) * (2 - (n : ZMod W64) * (x : ZMod W64)) := by
  have hle : n * x % W64 ≤ 2 + W64 := by
    have := Nat.mod_lt (n * x) W64_pos
    omega
  rw [minvStep, ZMod.natCast_mod, Nat.cast_mul, ZMod.natCast_mod, Nat.cast_sub hle,
    ZMod.natCast_mod]
  push_cast [ZMod.natCast_self]
  ring

set_option maxHeartbeats 1000000 in
theorem montgomery_inverse_cast (n : Nat) (hodd : n % 2 = 1) :
    (n : ZMod W64) * ((montgomery_inverse n : Nat) : ZMod W64) = -1 := by
  set y : ZMod W64 := (n : ZMod W64) with hy
  have key : ∀ x : Nat, (1 - y * ((minvStep n x : Nat) : ZMod W64)) =
      (1 - y * ((x : Nat) : ZMod W64)) ^ 2 := by
    intro x
    rw [minvStep_cast]
    ring
  set x0 := n % W64 with hx0
  set x1 := minvStep n x0 with hx1
  set x2 := minvStep n x1 with hx2
  set x3 := minvStep n x2 with hx3
  set x4 := minvStep n x3 with hx4
  set x5 := minvStep n x4 with hx5
  have hc0 : ((x0 : Nat) : ZMod W64) = y := by rw [hx0, ZMod.natCast_mod]
  have hfin : (1 - y * ((x5 : Nat) : ZMod W64)) = (1 - y * y) ^ 32 := by
    rw [hx5, key x4, hx4, key x3, hx3, key x2, hx2, key x1, hx1, key x0, hc0]
    ring
  obtain ⟨m, hm⟩ : ∃ m, n = 2 * m + 1 := ⟨n / 2, by omega⟩
  have hmsq : n * n = 4 * (m * (m + 1)) + 1 := by subst hm; ring
  obtain ⟨c, hc⟩ := Nat.even_mul_succ_self m
  have h8 : n * n = 8 * c + 1 := by omega
  have hzero : (1 - y * y) ^ 32 = 0 := by
    have hcast : y * y = 8 * (c : ZMod W64) + 1 := by
      rw [hy, ← Nat.cast_mul, h8]
      push_cast
      ring
    rw [hcast]
    have h1 : (1 : ZMod W64) - (8 * (c : ZMod W64) + 1) = -(8 * c) := by ring
    rw [h1]
    have h2 : (-(8 * (c : ZMod W64))) ^ 32 = (2 : ZMod W64) ^ 96 * c ^ 32 := by ring
    rw [h2]
    have h3 : (2 : ZMod W64) ^ 96 = ((2 ^ 96 : Nat) : ZMod W64) := by push_cast; ring
    have h4 : ((2 ^ 96 : Nat) : ZMod W64) = 0 := by
      have : (2 ^ 96 : Nat) = W64 * 2 ^ 32 := by norm_num [W64]
      rw [this]
      push_cast [ZMod.natCast_self]
      ring
    rw [h3, h4]
    ring
  have hx5z : y * ((x5 : Nat) : ZMod W64) = 1 := by
    have h5 : (1 : ZMod W64) - y * ((x5 : Nat) : ZMod W64) = 0 := hfin.symm ▸ hzero
    linear_combination -h5
  have hinv : ((montgomery_inverse n : Nat) : ZMod W64) = -((x5 : Nat) : ZMod W64) := by
    rw [montgomery_inverse]
    rw [show minvStep n (minvStep n (minvStep n (minvStep n (minvStep n (n % W64))))) = x5 from
      rfl]
    rw [ZMod.natCast_mod, Nat.cast_sub (Nat.le_of_lt (Nat.mod_lt _ W64_pos)),
      ZMod.natCast_mod, ZMod.natCast_self]
    ring
  rw [hinv]
  rw [show y * -((x5 : Nat) : ZMod W64) = -(y * ((x5 : Nat) : ZMod W64)) by ring, hx5z]

theorem montgomery_inverse_spec (n : Nat) (hodd : n % 2 = 1) :
    n * montgomery_inverse n ≡ W64 - 1 [MOD W64] := by
  haveI : NeZero W64 := ⟨by norm_num [W64]⟩
  rw [← ZMod.natCast_eq_natCast_iff]
  rw [Nat.cast_mul, montgomery_inverse_cast n hodd,
    Nat.cast_sub (by norm_num [W64] : 1 ≤ W64), ZMod.natCast_self]
  push_cast
  ring

theorem montgomery_reduce_spec {n n_inv t : Nat} (h1 : 1 < n)
    (h63 : n < MONTGOMERY_SAFE_THRESHOLD)
    (hinv : n * n_inv ≡ W64 - 1 [MOD W64]) (ht : t < W64 * n) :
    montgomery_reduce t n n_inv < n ∧ montgomery_reduce t n n_inv * W64 ≡ t [MOD n] := by
  have hn0 : 0 < n := by omega
  set m := t % W64 * n_inv % W64 with hm
  have hm_lt : m < W64 := Nat.mod_lt _ W64_pos
  have hkey : (t + m * n) % W64 = 0 := by
    have c1 : m * n ≡ t % W64 * n_inv * n [MOD W64] :=
      Nat.ModEq.mul_right n (Nat.mod_modEq _ _)
    have c2 : t % W64 * n_inv * n = t % W64 * (n * n_inv) := by ring
    have c3 : t % W64 * (n * n_inv) ≡ t % W64 * (W64 - 1) [MOD W64] :=
      Nat.ModEq.mul_left _ hinv
    have c4 : t + m * n ≡ t % W64 + t % W64 * (W64 - 1) [MOD W64] :=
      Nat.ModEq.add (Nat.mod_modEq t W64).symm (c1.trans (c2 ▸ c3))
    have c5 : t % W64 + t % W64 * (W64 - 1) = t % W64 * W64 := by
      have hW1 : W64 - 1 + 1 = W64 := by have := W64_pos; omega
      calc t % W64 + t % W64 * (W64 - 1) = t % W64 * ((W64 - 1) + 1) := by ring
      _ = t % W64 * W64 := by rw [hW1]
    have c6 : t % W64 * W64 ≡ 0 [MOD W64] :=
      (Nat.modEq_zero_iff_dvd).mpr ⟨t % W64, by ring⟩
    have c7 := c4.trans (c5 ▸ c6)
    simpa [Nat.ModEq] using c7
  have hdvd : W64 ∣ t + m * n := Nat.dvd_of_mod_eq_zero hkey
  have h2n : 2 * n ≤ W64 := by
    have h63' : n < 2 ^ 63 := h63
    rw [W64_lit]
    omega
  have hsum_lt : t + m * n < W128 := by
    rw [W128_eq]
    have hmn : m * n < W64 * n := (Nat.mul_lt_mul_right hn0).mpr hm_lt
    calc t + m * n < W64 * n + W64 * n := by omega
    _ = W64 * (2 * n) := by ring
    _ ≤ W64 * W64 := Nat.mul_le_mul_left _ h2n
  set u := (t % W128 + m * n) % W128 / W64 with hu
  have ht128 : t % W128 = t := Nat.mod_eq_of_lt (by omega)
  have hu_eq : u = (t + m * n) / W64 := by rw [hu, ht128, Nat.mod_eq_of_lt hsum_lt]
  have huW : u * W64 = t + m * n := by
    rw [hu_eq, Nat.div_mul_cancel hdvd]
  have hu2n : u < 2 * n := by
    have hlt : u * W64 < W64 * (2 * n) := by
      rw [huW]
      have hmn : m * n < W64 * n := (Nat.mul_lt_mul_right hn0).mpr hm_lt
      calc t + m * n < W64 * n + W64 * n := by omega
      _ = W64 * (2 * n) := by ring
    have : W64 * u < W64 * (2 * n) := by rw [Nat.mul_comm W64 u]; exact hlt
    exact Nat.lt_of_mul_lt_mul_left this
  have hcong : u * W64 ≡ t [MOD n] := by
    rw [huW]
    show (t + m * n) % n = t % n
    exact Nat.add_mul_mod_self_right t m n
  have hmr : montgomery_reduce t n n_inv = if n ≤ u then u - n else u := rfl
  rw [hmr]
  by_cases hcase : n ≤ u
  · rw [if_pos hcase]
    refine ⟨by omega, ?_⟩
    have hsplit : u * W64 = (u - n) * W64 + W64 * n := by
      have h' : u - n + n = u := by omega
      calc u * W64 = (u - n + n) * W64 := by rw [h']
      _ = (u - n) * W64 + W64 * n := by ring
    have hthis : (u - n) * W64 ≡ u * W64 [MOD n] := by
      rw [hsplit]
      show (u - n) * W64 % n = ((u - n) * W64 + W64 * n) % n
      rw [Nat.add_mul_mod_self_right]
    exact hthis.trans hcong
  · rw [if_neg hcase]
    exact ⟨by omega, hcong⟩

theorem not_dvd_W64 {n : Nat} (hodd : n % 2 = 1) (h1 : 1 < n) : ¬ n ∣ W64 := by
  intro hdvd
  have hco : Nat.gcd n W64 = 1 := (coprime_W64 hodd).symm
  have h2 : n ∣ Nat.gcd n W64 := Nat.dvd_gcd dvd_rfl hdvd
  rw [hco] at h2
  have := Nat.le_of_dvd one_pos h2
  omega

theorem cancel_W64 {n : Nat} (hodd : n % 2 = 1) (h1 : 1 < n) {y1 y2 : Nat}
    (hy1 : y1 < n) (hy2 : y2 < n) (h : y1 * W64 ≡ y2 * W64 [MOD n]) : y1 = y2 := by
  have hco : Nat.gcd n W64 = 1 := (coprime_W64 hodd).symm
  have h2 := Nat.ModEq.cancel_right_of_coprime hco h
  have h3 : y1 % n = y2 % n := h2
  rw [Nat.mod_eq_of_lt hy1, Nat.mod_eq_of_lt hy2] at h3
  exact h3

theorem r_squared_spec {n : Nat} (h1 : 1 < n) :
    montgomery_r_squared n < n ∧ montgomery_r_squared n ≡ W64 * W64 [MOD n] := by
  refine ⟨Nat.mod_lt _ (by omega), ?_⟩
  rw [montgomery_r_squared]
  exact (Nat.mod_modEq _ _).trans (Nat.ModEq.mul (Nat.mod_modEq _ _) (Nat.mod_modEq _ _))

theorem one_m_spec {n n_inv : Nat} (hodd : n % 2 = 1) (h1 : 1 < n)
    (h63 : n < MONTGOMERY_SAFE_THRESHOLD) (hinv : n * n_inv ≡ W64 - 1 [MOD W64]) :
    montgomery_reduce (montgomery_r_squared n) n n_inv = 1 * W64 % n := by
  obtain ⟨hrs_lt, hrs⟩ := r_squared_spec h1
  have ht : montgomery_r_squared n < W64 * n :=
    lt_of_lt_of_le hrs_lt (Nat.le_mul_of_pos_left n W64_pos)
  obtain ⟨hlt, hcong⟩ := montgomery_reduce_spec h1 h63 hinv ht
  refine cancel_W64 hodd h1 hlt (Nat.mod_lt _ (by omega)) ?_
  refine (hcong.trans hrs).trans ?_
  exact Nat.ModEq.mul_right W64 (by simpa using (Nat.mod_modEq W64 n).symm)

theorem neg_one_m_spec {n : Nat} (hodd : n % 2 = 1) (h1 : 1 < n) :
    n - 1 * W64 % n = (n - 1) * W64 % n := by
  set w := W64 % n with hw
  have hw_lt : w < n := Nat.mod_lt _ (by omega)
  have hw_pos : 0 < w := by
    by_contra h0
    push_neg at h0
    exact not_dvd_W64 hodd h1 (Nat.dvd_of_mod_eq_zero (by omega))
  have e0 : 1 * W64 % n = w := by rw [Nat.one_mul]
  rw [e0]
  have e1 : (n - 1) * w + w = n * w := by
    have hn : n - 1 + 1 = n := by omega
    calc (n - 1) * w + w = (n - 1 + 1) * w := by ring
    _ = n * w := by rw [hn]
  have e2 : n * (w - 1) + n = n * w := by
    have hwn : w - 1 + 1 = w := by omega
    calc n * (w - 1) + n = n * (w - 1 + 1) := by ring
    _ = n * w := by rw [hwn]
  have e3 : (n - 1) * w = n * (w - 1) + (n - w) := by omega
  have e4 : (n - 1) * W64 % n = (n - 1) * w % n := by
    conv_lhs => rw [Nat.mul_mod, Nat.mod_eq_of_lt (show n - 1 < n by omega), ← hw]
  rw [e4, e3, Nat.mul_add_mod]
  exact (Nat.mod_eq_of_lt (by omega)).symm

theorem montgomery_mul_canon {n n_inv : Nat} (hodd : n % 2 = 1) (h1 : 1 < n)
    (h63 : n < MONTGOMERY_SAFE_THRESHOLD) (hinv : n * n_inv ≡ W64 - 1 [MOD W64])
    {x y : Nat} (hx : x < n) (hy : y < n) :
    montgomery_mul (x * W64 % n) (y * W64 % n) n n_inv = x * y % n * W64 % n := by
  have hnW : n ≤ W64 := by
    have : n < 2 ^ 63 := h63
    rw [W64_lit]
    omega
  have ht : x * W64 % n * (y * W64 % n) < W64 * n := by
    have h2 : x * W64 % n < n := Nat.mod_lt _ (by omega)
    have h3 : y * W64 % n < n := Nat.mod_lt _ (by omega)
    calc x * W64 % n * (y * W64 % n) < n * n :=
          Nat.mul_lt_mul_of_lt_of_le h2 (le_of_lt h3) (by omega)
    _ ≤ W64 * n := Nat.mul_le_mul_right n hnW
  obtain ⟨hlt, hcong⟩ := montgomery_reduce_spec h1 h63 hinv ht
  rw [montgomery_mul]
  refine cancel_W64 hodd h1 hlt (Nat.mod_lt _ (by omega)) ?_
  refine hcong.trans ?_
  have c1 : x * W64 % n * (y * W64 % n) ≡ x * W64 * (y * W64) [MOD n] :=
    Nat.ModEq.mul (Nat.mod_modEq _ _) (Nat.mod_modEq _ _)
  have c2 : x * y % n * W64 % n * W64 ≡ x * y * (W64 * W64) [MOD n] := by
    have := (Nat.mod_modEq (x * y % n * W64) n).mul_right W64
    refine this.trans ?_
    have := (Nat.mod_modEq (x * y) n).mul_right W64 |>.mul_right W64
    refine this.trans ?_
    exact Nat.ModEq.refl _ |>.trans (by rw [Nat.mul_assoc])
  calc x * W64 % n * (y * W64 % n) ≡ x * W64 * (y * W64) [MOD n] := c1
  _ = x * y * (W64 * W64) := by ring
  _ ≡ x * y % n * W64 % n * W64 [MOD n] := c2.symm

theorem a_m_canon {n n_inv : Nat} (hodd : n % 2 = 1) (h1 : 1 < n)
    (h63 : n < MONTGOMERY_SAFE_THRESHOLD) (hinv : n * n_inv ≡ W64 - 1 [MOD W64])
    {a : Nat} (ha : a < n) :
    montgomery_reduce (a * montgomery_r_squared n) n n_inv = a * W64 % n := by
  have hnW : n ≤ W64 := by
    have : n < 2 ^ 63 := h63
    rw [W64_lit]
    omega
  obtain ⟨hrs_lt, hrs⟩ := r_squared_spec h1
  have ht : a * montgomery_r_squared n < W64 * n := by
    calc a * montgomery_r_squared n < n * n :=
          Nat.mul_lt_mul_of_lt_of_le ha (le_of_lt hrs_lt) (by omega)
    _ ≤ W64 * n := Nat.mul_le_mul_right n hnW
  obtain ⟨hlt, hcong⟩ := montgomery_reduce_spec h1 h63 hinv ht
  refine cancel_W64 hodd h1 hlt (Nat.mod_lt _ (by omega)) ?_
  refine hcong.trans ?_
  have c1 : a * montgomery_r_squared n ≡ a * (W64 * W64) [MOD n] := Nat.ModEq.mul_left a hrs
  have c2 : a * W64 % n * W64 ≡ a * (W64 * W64) [MOD n] := by
    refine ((Nat.mod_modEq (a * W64) n).mul_right W64).trans ?_
    rw [Nat.mul_assoc]
  exact c1.trans c2.symm

/-- Canonical Montgomery forms are injective below the modulus. -/
theorem canon_eq_iff {n : Nat} (hodd : n % 2 = 1) (h1 : 1 < n) {y1 y2 : Nat}
    (hy1 : y1 < n) (hy2 : y2 < n) :
    (y1 * W64 % n = y2 * W64 % n) ↔ y1 = y2 :=
  ⟨fun h => cancel_W64 hodd h1 hy1 hy2 h, fun h => by rw [h]⟩

theorem powmodLoop_eq (m exp result base : Nat) :
    powmodLoop m exp result base =
      if exp = 0 then result
      else powmodLoop m (exp / 2)
        (if exp % 2 = 1 then mulmod64_std result base m else result)
        (mulmod64_std base base m) := by
  rw [powmodLoop]
  exact dite_eq_ite

theorem montPowLoop_eq (n n_inv exp x_m base_m : Nat) :
    montPowLoop n n_inv exp x_m base_m =
      if exp = 0 then x_m
      else montPowLoop n n_inv (exp / 2)
        (if exp % 2 = 1 then montgomery_mul x_m base_m n n_inv else x_m)
        (montgomery_mul base_m base_m n n_inv) := by
  rw [montPowLoop]
  exact dite_eq_ite

/-- The standard exponentiation loop keeps its accumulator below the
modulus. -/
theorem powmodLoop_lt {m : Nat} (hm : 0 < m) :
    ∀ exp result base, result < m → powmodLoop m exp result base < m := by
  intro exp
  induction exp using Nat.strong_induction_on with
  | _ exp ih =>
    intro result base hr
    rw [powmodLoop_eq]
    by_cases h0 : exp = 0
    · rw [if_pos h0]
      exact hr
    · rw [if_neg h0]
      refine ih (exp / 2) (Nat.div_lt_self (Nat.pos_of_ne_zero h0) (by omega)) _ _ ?_
      by_cases hbit : exp % 2 = 1
      · rw [if_pos hbit]
        exact Nat.mod_lt _ hm
      · rw [if_neg hbit]
        exact hr

/-- The branchless Montgomery exponentiation loop, run on canonical forms
`x·2^64 mod n` and `b·2^64 mod n`, returns the canonical form of the
standard loop's result. -/
theorem montPowLoop_canon {n n_inv : Nat} (hodd : n % 2 = 1) (h1 : 1 < n)
    (h63 : n < MONTGOMERY_SAFE_THRESHOLD) (hinv : n * n_inv ≡ W64 - 1 [MOD W64]) :
    ∀ exp x b, x < n → b < n →
      montPowLoop n n_inv exp (x * W64 % n) (b * W64 % n) =
        powmodLoop n exp x b * W64 % n := by
  intro exp
  induction exp using Nat.strong_induction_on with
  | _ exp ih =>
    intro x b hx hb
    rw [montPowLoop_eq, powmodLoop_eq]
    by_cases h0 : exp = 0
    · rw [if_pos h0, if_pos h0]
    · rw [if_neg h0, if_neg h0]
      rw [montgomery_mul_canon hodd h1 h63 hinv hb hb]
      simp only [mulmod64_std]
      have hrec := Nat.div_lt_self (Nat.pos_of_ne_zero h0) (show 1 < 2 by omega)
      by_cases hbit : exp % 2 = 1
      · rw [if_pos hbit, if_pos hbit, montgomery_mul_canon hodd h1 h63 hinv hx hb]
        exact ih (exp / 2) hrec (x * b % n) (b * b % n)
          (Nat.mod_lt _ (by omega)) (Nat.mod_lt _ (by omega))
      · rw [if_neg hbit, if_neg hbit]
        exact ih (exp / 2) hrec x (b * b % n) hx (Nat.mod_lt _ (by omega))

/-- The Montgomery final-squaring loop, run on canonical forms with the
canonical `one_m` and `neg_one_m`, agrees with the standard squaring
loop. -/
theorem sqLoop_canon {n n_inv : Nat} (hodd : n % 2 = 1) (h1 : 1 < n)
    (h63 : n < MONTGOMERY_SAFE_THRESHOLD) (hinv : n * n_inv ≡ W64 - 1 [MOD W64]) :
    ∀ count x, x < n →
      sqLoopMont n n_inv (1 * W64 % n) ((n - 1) * W64 % n) (x * W64 % n) count =
        sqLoopStd n x count := by
  intro count
  induction count with
  | zero =>
    intro x _
    rfl
  | succ c ih =>
    intro x hx
    simp only [sqLoopMont, sqLoopStd, mulmod64_std]
    rw [montgomery_mul_canon hodd h1 h63 hinv hx hx]
    have hy : x * x % n < n := Nat.mod_lt _ (by omega)
    by_cases hneg : x * x % n = n - 1
    · rw [if_pos ((canon_eq_iff hodd h1 hy (by omega)).mpr hneg), if_pos hneg]
    · rw [if_neg (fun h => hneg ((canon_eq_iff hodd h1 hy (by omega)).mp h)),
        if_neg hneg]
      by_cases hone : x * x % n = 1
      · rw [if_pos ((canon_eq_iff hodd h1 hy h1).mpr hone), if_pos hone]
      · rw [if_neg (fun h => hone ((canon_eq_iff hodd h1 hy h1).mp h)), if_neg hone]
        exact ih (x * x % n) hy

/-- With the inverse and `r²` actually produced by `montgomery_inverse`
and `montgomery_r_squared`, the fast-path witness test agrees with the
standard one. -/
theorem mr_safe_eq_std {n : Nat} (hodd : n % 2 = 1) (h1 : 1 < n)
    (h63 : n < MONTGOMERY_SAFE_THRESHOLD) (a : Nat) :
    mr_witness_montgomery_safe n a (montgomery_inverse n) (montgomery_r_squared n) =
      mr_witness_std n a := by
  have hinv := montgomery_inverse_spec n hodd
  simp only [mr_witness_montgomery_safe, mr_witness_std, powmod64_std]
  set a' := if n ≤ a then a % n else a with ha'
  have ha'_lt : a' < n := by
    rw [ha']
    split_ifs with h
    · exact Nat.mod_lt _ (by omega)
    · omega
  by_cases hz : a' = 0
  · rw [if_pos hz, if_pos hz]
  · rw [if_neg hz, if_neg hz]
    rw [one_m_spec hodd h1 h63 hinv, a_m_canon hodd h1 h63 hinv ha'_lt,
      neg_one_m_spec hodd h1, Nat.mod_eq_of_lt ha'_lt,
      montPowLoop_canon hodd h1 h63 hinv _ 1 a' h1 ha'_lt]
    set X := powmodLoop n ((n - 1) >>> twoVal (n - 1)) 1 a' with hX
    have hX_lt : X < n := by
      rw [hX]
      exact powmodLoop_lt (by omega) _ 1 a' (by omega)
    have hiff : (X * W64 % n = 1 * W64 % n ∨ X * W64 % n = (n - 1) * W64 % n) ↔
        (X = 1 ∨ X = n - 1) :=
      or_congr (canon_eq_iff hodd h1 hX_lt h1) (canon_eq_iff hodd h1 hX_lt (by omega))
    by_cases hc : X = 1 ∨ X = n - 1
    · rw [if_pos (hiff.mpr hc), if_pos hc]
    · rw [if_neg (fun h => hc (hiff.mp h)), if_neg hc]
      exact sqLoop_canon hodd h1 h63 hinv (twoVal (n - 1) - 1) X hX_lt

/-- C5 : For every odd `n ≥ 3` and every base `a`, the hybrid witness test
`mr_witness_montgomery n a` returns the same boolean as the standard
wide-mulmod test `mr_witness_std n a`: below `2^63` the Montgomery fast
path (exact inverse, `r² mod n`, `montgomery_reduce`, branchless
exponentiation and final squaring loop) yields the identical
strong-probable-prime verdict, and at or above `2^63` the fallback path is
taken verbatim. -/
theorem C5_montgomery_equals_std (n a : Nat) (hodd : n % 2 = 1) (h3 : 3 ≤ n) :
    mr_witness_montgomery n a = mr_witness_std n a := by
  rw [mr_witness_montgomery]
  by_cases h63 : n < MONTGOMERY_SAFE_THRESHOLD
  · rw [if_pos h63]
    exact mr_safe_eq_std hodd (by omega) h63 a
  · rw [if_neg h63]

theorem C5_montgomery_equals_std_witness :
    5 % 2 = 1 ∧ 3 ≤ 5 ∧ mr_witness_montgomery 5 2 = mr_witness_std 5 2 :=
  ⟨by decide, by decide, C5_montgomery_equals_std 5 2 (by decide) (by decide)⟩

/-! ### Wheel-30 facts and generic bitmap-fold lemmas (towards C6) -/

theorem wheel30_index_cases :
    ∀ r < 30, (wheel30_index r ≠ 255 ↔ (r % 2 = 1 ∧ r % 3 ≠ 0 ∧ r % 5 ≠ 0)) := by decide

theorem wheel30_index_lt_eight :
    ∀ r < 30, wheel30_index r ≠ 255 → wheel30_index r < 8 := by decide

theorem wheel30_index_injective :
    ∀ r < 30, ∀ s < 30, wheel30_index r ≠ 255 → wheel30_index s ≠ 255 →
      wheel30_index r = wheel30_index s → r = s := by decide

theorem wheel30_residues_of_index :
    ∀ r < 30, wheel30_index r ≠ 255 → wheel30_residues (wheel30_index r) = r := by decide

theorem wheel30_residues_bounds :
    ∀ i < 8, 1 ≤ wheel30_residues i ∧ wheel30_residues i ≤ 29 := by decide

theorem wheel30_residues_mono :
    ∀ i < 8, ∀ j < 8, i < j → wheel30_residues i < wheel30_residues j := by decide

/-- `wheel30_is_coprime` tests exactly coprimality to 2, 3 and 5. -/
theorem wheel30_is_coprime_iff (n : Nat) :
    wheel30_is_coprime n = true ↔ (n % 2 = 1 ∧ n % 3 ≠ 0 ∧ n % 5 ≠ 0) := by
  have h30 : n % 30 < 30 := Nat.mod_lt _ (by omega)
  have hw := wheel30_index_cases (n % 30) h30
  have h2 : n % 2 = n % 30 % 2 := (Nat.mod_mod_of_dvd n (by norm_num)).symm
  have h3 : n % 3 = n % 30 % 3 := (Nat.mod_mod_of_dvd n (by norm_num)).symm
  have h5 : n % 5 = n % 30 % 5 := (Nat.mod_mod_of_dvd n (by norm_num)).symm
  rw [wheel30_is_coprime, h2, h3, h5]
  simpa using hw

theorem wheel30_index_coprime_ne {n : Nat} (h : wheel30_is_coprime n = true) :
    wheel30_index (n % 30) ≠ 255 := by
  simpa [wheel30_is_coprime] using h

/-- `wheel30_bit_index` is injective on numbers coprime to 30. -/
theorem wheel30_bit_index_inj {m n : Nat} (hm : wheel30_is_coprime m = true)
    (hn : wheel30_is_coprime n = true)
    (h : wheel30_bit_index m = wheel30_bit_index n) : m = n := by
  have hm' := wheel30_index_coprime_ne hm
  have hn' := wheel30_index_coprime_ne hn
  have hmlt : m % 30 < 30 := Nat.mod_lt _ (by omega)
  have hnlt : n % 30 < 30 := Nat.mod_lt _ (by omega)
  have him := wheel30_index_lt_eight (m % 30) hmlt hm'
  have hin := wheel30_index_lt_eight (n % 30) hnlt hn'
  rw [wheel30_bit_index, wheel30_bit_index] at h
  have hdm : m / 30 = n / 30 ∧ wheel30_index (m % 30) = wheel30_index (n % 30) := by omega
  have hres := wheel30_index_injective (m % 30) hmlt (n % 30) hnlt hm' hn' hdm.2
  omega

/-- The byte index of a coprime number's wheel bit is `n / 30`. -/
theorem wheel30_bit_index_div8 {n : Nat} (h : wheel30_is_coprime n = true) :
    wheel30_bit_index n / 8 = n / 30 := by
  have h' := wheel30_index_coprime_ne h
  have hi := wheel30_index_lt_eight (n % 30) (Nat.mod_lt _ (by omega)) h'
  rw [wheel30_bit_index]
  omega

/-- A fold of steps that never set bits keeps a cleared bit cleared. -/
theorem foldl_false_stays {α : Type} (f : (Nat → Bool) → α → (Nat → Bool)) (j : Nat)
    (hstep : ∀ bm a, bm j = false → f bm a j = false) :
    ∀ (l : List α) (bm : Nat → Bool), bm j = false → (l.foldl f bm) j = false := by
  intro l
  induction l with
  | nil => intro bm h; exact h
  | cons a t ih => intro bm h; exact ih (f bm a) (hstep bm a h)

/-- If some list element clears bit `j` and no step ever sets bits, the
fold ends with bit `j` cleared. -/
theorem foldl_clears {α : Type} (f : (Nat → Bool) → α → (Nat → Bool)) (j : Nat)
    (hstep : ∀ bm a, bm j = false → f bm a j = false) {x : α}
    (hclear : ∀ bm, f bm x j = false) :
    ∀ (l : List α), x ∈ l → ∀ bm, (l.foldl f bm) j = false := by
  intro l
  induction l with
  | nil => intro hx; cases hx
  | cons a t ih =>
    intro hx bm
    rcases List.mem_cons.mp hx with rfl | hx'
    · exact foldl_false_stays f j hstep t (f bm x) (hclear bm)
    · exact ih hx' (f bm a)

/-- A number with a divisor `p`, `1 < p ≤ √m`, is not prime. -/
theorem not_prime_of_divisor_sq {p m : Nat} (hp : 1 < p) (hdvd : p ∣ m)
    (hsq : p * p ≤ m) : ¬ Nat.Prime m := by
  intro hm
  rcases hm.eq_one_or_self_of_dvd p hdvd with h | h
  · omega
  · subst h
    nlinarith [hm.two_le]

theorem pairwise_filterMap_of_pairwise {α β : Type} (S : α → α → Prop) (R : β → β → Prop)
    (f : α → Option β)
    (h : ∀ a a', S a a' → ∀ b b', f a = some b → f a' = some b' → R b b') :
    ∀ l : List α, l.Pairwise S → (l.filterMap f).Pairwise R := by
  intro l
  induction l with
  | nil =>
    intro
    simp
  | cons a t ih =>
    intro hl
    rw [List.pairwise_cons] at hl
    obtain ⟨ha, ht⟩ := hl
    cases hfa : f a with
    | none =>
      rw [List.filterMap_cons, hfa]
      exact ih ht
    | some b =>
      rw [List.filterMap_cons, hfa, List.pairwise_cons]
      refine ⟨?_, ih ht⟩
      intro b' hb'
      obtain ⟨a', ha', hfa'⟩ := List.mem_filterMap.mp hb'
      exact h a a' (ha a' ha') b b' hfa hfa'

/-- Sorted blocks of width 30 concatenate to a sorted list. -/
theorem pairwise_le_flatMap_range (inner : Nat → List Nat) (N : Nat)
    (hb : ∀ b, ∀ x ∈ inner b, 30 * b ≤ x ∧ x < 30 * b + 30)
    (hp : ∀ b, (inner b).Pairwise (fun a c => a ≤ c)) :
    ((List.range N).flatMap inner).Pairwise (fun a c => a ≤ c) := by
  induction N with
  | zero => simp
  | succ k ih =>
    rw [List.range_succ, List.flatMap_append, List.pairwise_append]
    refine ⟨ih, ?_, ?_⟩
    · simpa [List.flatMap_cons] using hp k
    · intro a ha c hc
      simp only [List.flatMap_cons, List.flatMap_nil, List.append_nil] at hc
      obtain ⟨b, hbmem, hab⟩ := List.mem_flatMap.mp ha
      have hbk : b < k := List.mem_range.mp hbmem
      have h1 := hb b a hab
      have h2 := hb k c hc
      omega

/-- A sorted list's prefix below the square-bound is a prefix of its
`takeWhile`. -/
theorem mem_takeWhile_sq {bound : Nat} :
    ∀ l : List Nat, l.Pairwise (fun a b => a ≤ b) → ∀ p, p ∈ l → p * p ≤ bound →
      p ∈ l.takeWhile (fun x => decide (x * x ≤ bound)) := by
  intro l
  induction l with
  | nil =>
    intro _ p hp
    cases hp
  | cons a t ih =>
    intro hl p hp hpb
    rw [List.pairwise_cons] at hl
    obtain ⟨ha, ht⟩ := hl
    rcases List.mem_cons.mp hp with rfl | hp'
    · rw [List.takeWhile_cons, if_pos (by simpa using hpb)]
      exact List.mem_cons_self _ _
    · have hab : a ≤ p := ha p hp'
      have haq : a * a ≤ bound := le_trans (Nat.mul_le_mul hab hab) hpb
      rw [List.takeWhile_cons, if_pos (by simpa using haq)]
      exact List.mem_cons_of_mem _ (ih ht p hp' hpb)

/-- The small sieve's inner clearing loop never clears a prime's bit. -/
theorem smallSieveClear_sound {st p' q : Nat} (hp' : 7 ≤ p') (hq : Nat.Prime q)
    (hcoq : wheel30_is_coprime q = true) (bm : Nat → Bool)
    (hbm : bm (wheel30_bit_index q) = true) :
    smallSieveClear st p' bm (wheel30_bit_index q) = true := by
  rw [smallSieveClear]
  refine foldl_invariant (fun b : Nat → Bool => b (wheel30_bit_index q) = true) _ _ _ hbm ?_
  intro b m hmem hb
  obtain ⟨k, rfl, -⟩ := (mem_stepsUpto (show 0 < 2 * p' by omega)).mp hmem
  by_cases hco : wheel30_is_coprime (p' * p' + k * (2 * p')) = true
  · rw [if_pos hco]
    have hdvd : p' ∣ (p' * p' + k * (2 * p')) := ⟨p' + 2 * k, by ring⟩
    have hsq : p' * p' ≤ p' * p' + k * (2 * p') := by omega
    have hne : wheel30_bit_index q ≠ wheel30_bit_index (p' * p' + k * (2 * p')) := by
      intro he
      have heq := wheel30_bit_index_inj hcoq hco he
      exact not_prime_of_divisor_sq (show 1 < p' by omega) hdvd hsq (heq ▸ hq)
    simp only [wheel30_clear_bit]
    rw [if_neg hne]
    exact hb
  · rw [if_neg hco]
    exact hb

/-- The small sequential sieve leaves every prime's bit set. -/
theorem smallSieve_prime {q : Nat} (hq : Nat.Prime q)
    (hcoq : wheel30_is_coprime q = true) (ss st : Nat) :
    smallSieve ss st (wheel30_bit_index q) = true := by
  rw [smallSieve]
  refine foldl_invariant (fun b : Nat → Bool => b (wheel30_bit_index q) = true) _ _ _ rfl ?_
  intro b p' hmem hb
  obtain ⟨k, rfl, -⟩ := (mem_stepsUpto (show 0 < 2 by omega)).mp hmem
  by_cases hco : wheel30_is_coprime (7 + k * 2) = true
  · rw [if_pos hco]
    by_cases hbit : b (wheel30_bit_index (7 + k * 2)) = true
    · rw [if_pos hbit]
      exact smallSieveClear_sound (by omega) hq hcoq b hb
    · rw [if_neg hbit]
      exact hb
  · rw [if_neg hco]
    exact hb

/-- Every prime `5 < p ≤ sqrt_thresh` coprime to 30 is collected as a
sieving prime. -/
theorem mem_sievingPrimes {ss st p : Nat} (hp : Nat.Prime p)
    (hco : wheel30_is_coprime p = true) (h5 : 5 < p) (hst : p ≤ st) :
    p ∈ sievingPrimes ss st := by
  have hco' := wheel30_index_coprime_ne hco
  have hi8 : wheel30_index (p % 30) < 8 :=
    wheel30_index_lt_eight (p % 30) (Nat.mod_lt _ (by omega)) hco'
  have hres : wheel30_residues (wheel30_index (p % 30)) = p % 30 :=
    wheel30_residues_of_index (p % 30) (Nat.mod_lt _ (by omega)) hco'
  have hss : smallSieve ss st (p / 30 * 8 + wheel30_index (p % 30)) = true :=
    smallSieve_prime hp hco ss st
  rw [sievingPrimes, List.mem_flatMap]
  refine ⟨p / 30, List.mem_range.mpr (by omega), ?_⟩
  rw [List.mem_filterMap]
  refine ⟨wheel30_index (p % 30), List.mem_range.mpr hi8, ?_⟩
  simp only
  rw [hres]
  have he : 30 * (p / 30) + p % 30 = p := by omega
  rw [he]
  rw [if_pos ⟨h5, hst, hss⟩]

/-- Facts recorded by the sieving-prime collection: every entry is `> 5`
and `≤ sqrt_thresh`. -/
theorem sievingPrimes_mem_facts {ss st x : Nat} (hx : x ∈ sievingPrimes ss st) :
    5 < x ∧ x ≤ st := by
  rw [sievingPrimes] at hx
  obtain ⟨b, -, hxb⟩ := List.mem_flatMap.mp hx
  obtain ⟨i, -, hfi⟩ := List.mem_filterMap.mp hxb
  simp only at hfi
  split_ifs at hfi with hc
  rw [Option.some.injEq] at hfi
  omega

/-- The sieving-prime list is sorted ascending. -/
theorem sievingPrimes_pairwise (ss st : Nat) :
    (sievingPrimes ss st).Pairwise (fun a c => a ≤ c) := by
  rw [sievingPrimes]
  refine pairwise_le_flatMap_range _ _ ?_ ?_
  · intro b x hx
    obtain ⟨i, hi, hfi⟩ := List.mem_filterMap.mp hx
    have hi8 : i < 8 := List.mem_range.mp hi
    simp only at hfi
    split_ifs at hfi with hc
    rw [Option.some.injEq] at hfi
    obtain ⟨hb1, hb2⟩ := wheel30_residues_bounds i hi8
    omega
  · intro b
    refine pairwise_filterMap_of_pairwise (fun i j => i < j ∧ j < 8) _ _ ?_ (List.range 8)
      (by decide)
    intro i j hij x y hfx hfy
    simp only at hfx hfy
    split_ifs at hfx with hcx
    split_ifs at hfy with hcy
    rw [Option.some.injEq] at hfx hfy
    have := wheel30_residues_mono i (by omega) j hij.2 hij.1
    omega

/-- Unfolding of `segSieve` with its segment bounds substituted. -/
theorem segSieve_eq (threshold : Nat) (primes : List Nat) (num_bytes seg : Nat)
    (bm : Nat → Bool) :
    segSieve threshold primes num_bytes seg bm =
      (primes.takeWhile fun p =>
          decide (p * p ≤
            min ((min (seg * SIEVE_SEGMENT_BYTES + SIEVE_SEGMENT_BYTES) num_bytes + 1) * 30)
              threshold)).foldl
        (fun bm p =>
          segClear threshold (seg * SIEVE_SEGMENT_BYTES)
            (min (seg * SIEVE_SEGMENT_BYTES + SIEVE_SEGMENT_BYTES) num_bytes)
            (min ((min (seg * SIEVE_SEGMENT_BYTES + SIEVE_SEGMENT_BYTES) num_bytes + 1) * 30)
              threshold)
            p
            (if p * p < seg * SIEVE_SEGMENT_BYTES * 30 then
              (seg * SIEVE_SEGMENT_BYTES * 30 + p - 1) / p * p
            else p * p) bm)
        bm := rfl

/-- `segClear` never sets a cleared bit. -/
theorem segClear_false_stays {threshold bs be ne p start j : Nat} (bm : Nat → Bool)
    (h : bm j = false) : segClear threshold bs be ne p start bm j = false := by
  rw [segClear]
  refine foldl_false_stays _ j ?_ _ bm h
  intro b m hbj
  show (if wheel30_is_coprime m = true then
      (if bs ≤ wheel30_bit_index m / 8 ∧ wheel30_bit_index m / 8 < be then
        wheel30_clear_bit b (wheel30_bit_index m) else b)
    else b) j = false
  by_cases hco' : wheel30_is_coprime m = true
  · rw [if_pos hco']
    by_cases hbyte : bs ≤ wheel30_bit_index m / 8 ∧ wheel30_bit_index m / 8 < be
    · rw [if_pos hbyte]
      simp only [wheel30_clear_bit]
      by_cases hj : j = wheel30_bit_index m
      · rw [if_pos hj]
      · rw [if_neg hj]
        exact hbj
    · rw [if_neg hbyte]
      exact hbj
  · rw [if_neg hco']
    exact hbj

/-- `segClear` clears the bit of any multiple of `p` in its range whose
byte the segment owns. -/
theorem segClear_clears {threshold bs be ne p start n : Nat} (hp : 0 < p)
    (hdvd : p ∣ n) (hstart : start ≤ n) (hsmod : start % p = 0)
    (hnne : n ≤ ne) (hthr : n ≤ threshold) (hco : wheel30_is_coprime n = true)
    (hb1 : bs ≤ wheel30_bit_index n / 8) (hb2 : wheel30_bit_index n / 8 < be)
    (bm : Nat → Bool) :
    segClear threshold bs be ne p start bm (wheel30_bit_index n) = false := by
  rw [segClear]
  have hmem : n ∈ stepsUpto start p (min ne threshold + 1) := by
    obtain ⟨c, hc⟩ := Nat.dvd_sub' hdvd (Nat.dvd_of_mod_eq_zero hsmod)
    rw [Nat.mul_comm] at hc
    exact (mem_stepsUpto hp).mpr ⟨c, by omega, by omega⟩
  refine foldl_clears _ (wheel30_bit_index n) ?_ ?_ _ hmem bm
  · intro b m hbj
    show (if wheel30_is_coprime m = true then
        (if bs ≤ wheel30_bit_index m / 8 ∧ wheel30_bit_index m / 8 < be then
          wheel30_clear_bit b (wheel30_bit_index m) else b)
      else b) (wheel30_bit_index n) = false
    by_cases hco' : wheel30_is_coprime m = true
    · rw [if_pos hco']
      by_cases hbyte : bs ≤ wheel30_bit_index m / 8 ∧ wheel30_bit_index m / 8 < be
      · rw [if_pos hbyte]
        simp only [wheel30_clear_bit]
        by_cases hj : wheel30_bit_index n = wheel30_bit_index m
        · rw [if_pos hj]
        · rw [if_neg hj]
          exact hbj
      · rw [if_neg hbyte]
        exact hbj
    · rw [if_neg hco']
      exact hbj
  · intro b
    show (if wheel30_is_coprime n = true then
        (if bs ≤ wheel30_bit_index n / 8 ∧ wheel30_bit_index n / 8 < be then
          wheel30_clear_bit b (wheel30_bit_index n) else b)
      else b) (wheel30_bit_index n) = false
    rw [if_pos hco, if_pos ⟨hb1, hb2⟩]
    simp [wheel30_clear_bit]

/-- `segClear` from a start at or past `p²` never clears a prime's bit. -/
theorem segClear_sound {threshold bs be ne p start q : Nat} (hp : 1 < p)
    (hsq : p * p ≤ start) (hsmod : start % p = 0)
    (hq : Nat.Prime q) (hcoq : wheel30_is_coprime q = true) (bm : Nat → Bool)
    (hbm : bm (wheel30_bit_index q) = true) :
    segClear threshold bs be ne p start bm (wheel30_bit_index q) = true := by
  rw [segClear]
  refine foldl_invariant (fun b : Nat → Bool => b (wheel30_bit_index q) = true) _ _ _ hbm ?_
  intro b m hmem hb
  obtain ⟨k, rfl, -⟩ := (mem_stepsUpto (show 0 < p by omega)).mp hmem
  show (if wheel30_is_coprime (start + k * p) = true then
      (if bs ≤ wheel30_bit_index (start + k * p) / 8 ∧
          wheel30_bit_index (start + k * p) / 8 < be then
        wheel30_clear_bit b (wheel30_bit_index (start + k * p)) else b)
    else b) (wheel30_bit_index q) = true
  by_cases hcom : wheel30_is_coprime (start + k * p) = true
  · rw [if_pos hcom]
    by_cases hbyte : bs ≤ wheel30_bit_index (start + k * p) / 8 ∧
        wheel30_bit_index (start + k * p) / 8 < be
    · rw [if_pos hbyte]
      have hnecl : wheel30_bit_index q ≠ wheel30_bit_index (start + k * p) := by
        intro he
        have heq := wheel30_bit_index_inj hcoq hcom he
        have hdvdm : p ∣ start + k * p := by
          obtain ⟨c, hc⟩ := Nat.dvd_of_mod_eq_zero hsmod
          exact ⟨c + k, by rw [hc]; ring⟩
        have hsqm : p * p ≤ start + k * p := by omega
        exact not_prime_of_divisor_sq hp hdvdm hsqm (heq ▸ hq)
      simp only [wheel30_clear_bit]
      rw [if_neg hnecl]
      exact hb
    · rw [if_neg hbyte]
      exact hb
  · rw [if_neg hcom]
    exact hb

/-- `segSieve` never sets a cleared bit. -/
theorem segSieve_false_stays {threshold : Nat} {primes : List Nat} {num_bytes seg j : Nat}
    (bm : Nat → Bool) (h : bm j = false) :
    segSieve threshold primes num_bytes seg bm j = false := by
  rw [segSieve_eq]
  refine foldl_false_stays _ j ?_ _ bm h
  intro b p hbj
  exact segClear_false_stays b hbj

/-- `segSieve` leaves every prime's bit set (its sieving values all have a
proper divisor below their square root). -/
theorem segSieve_sound {threshold : Nat} {primes : List Nat}
    (hprimes : ∀ x ∈ primes, 5 < x) {num_bytes seg : Nat} {q : Nat}
    (hq : Nat.Prime q) (hcoq : wheel30_is_coprime q = true) (bm : Nat → Bool)
    (hbm : bm (wheel30_bit_index q) = true) :
    segSieve threshold primes num_bytes seg bm (wheel30_bit_index q) = true := by
  rw [segSieve_eq]
  refine foldl_invariant (fun b : Nat → Bool => b (wheel30_bit_index q) = true) _ _ _ hbm ?_
  intro b p hpmem hb
  have hp5 : 5 < p := hprimes p ((List.takeWhile_sublist _).subset hpmem)
  have hstart_sq : p * p ≤
      (if p * p < seg * SIEVE_SEGMENT_BYTES * 30 then
        (seg * SIEVE_SEGMENT_BYTES * 30 + p - 1) / p * p
      else p * p) := by
    by_cases hplt : p * p < seg * SIEVE_SEGMENT_BYTES * 30
    · rw [if_pos hplt]
      have h1 := Nat.div_add_mod (seg * SIEVE_SEGMENT_BYTES * 30 + p - 1) p
      have h2 : (seg * SIEVE_SEGMENT_BYTES * 30 + p - 1) % p < p := Nat.mod_lt _ (by omega)
      have h3 : p * ((seg * SIEVE_SEGMENT_BYTES * 30 + p - 1) / p) =
          (seg * SIEVE_SEGMENT_BYTES * 30 + p - 1) / p * p := Nat.mul_comm _ _
      omega
    · rw [if_neg hplt]
  have hstart_mod :
      (if p * p < seg * SIEVE_SEGMENT_BYTES * 30 then
        (seg * SIEVE_SEGMENT_BYTES * 30 + p - 1) / p * p
      else p * p) % p = 0 := by
    by_cases hplt : p * p < seg * SIEVE_SEGMENT_BYTES * 30
    · rw [if_pos hplt]
      exact Nat.mul_mod_left _ _
    · rw [if_neg hplt]
      exact Nat.mul_mod_left _ _
  exact segClear_sound (by omega) hstart_sq hstart_mod hq hcoq b hb

/-- In the segment owning `n`'s byte, `segSieve` clears the bit of any
composite `n` divisible by a listed prime `p` with `p² ≤ n`. -/
theorem segSieve_clears {threshold : Nat} {primes : List Nat} {num_bytes seg n p : Nat}
    (hpw : primes.Pairwise (fun a c => a ≤ c))
    (hpmem : p ∈ primes) (hp1 : 1 < p) (hdvd : p ∣ n) (hpsq : p * p ≤ n)
    (hco : wheel30_is_coprime n = true) (hthr : n ≤ threshold)
    (hseg1 : seg * SIEVE_SEGMENT_BYTES ≤ n / 30)
    (hseg2 : n / 30 < min (seg * SIEVE_SEGMENT_BYTES + SIEVE_SEGMENT_BYTES) num_bytes)
    (bm : Nat → Bool) :
    segSieve threshold primes num_bytes seg bm (wheel30_bit_index n) = false := by
  rw [segSieve_eq]
  have hdiv8 := wheel30_bit_index_div8 hco
  have hnns : seg * SIEVE_SEGMENT_BYTES * 30 ≤ n := by omega
  have hnne : n ≤
      min ((min (seg * SIEVE_SEGMENT_BYTES + SIEVE_SEGMENT_BYTES) num_bytes + 1) * 30)
        threshold := by omega
  have hmemTW : p ∈ primes.takeWhile (fun x =>
      decide (x * x ≤
        min ((min (seg * SIEVE_SEGMENT_BYTES + SIEVE_SEGMENT_BYTES) num_bytes + 1) * 30)
          threshold)) :=
    mem_takeWhile_sq primes hpw p hpmem (le_trans hpsq hnne)
  refine foldl_clears _ (wheel30_bit_index n) ?_ ?_ _ hmemTW bm
  · intro b x hbj
    exact segClear_false_stays b hbj
  · intro b
    have hstart_le :
        (if p * p < seg * SIEVE_SEGMENT_BYTES * 30 then
          (seg * SIEVE_SEGMENT_BYTES * 30 + p - 1) / p * p
        else p * p) ≤ n := by
      by_cases hplt : p * p < seg * SIEVE_SEGMENT_BYTES * 30
      · rw [if_pos hplt]
        obtain ⟨c, hc⟩ := hdvd
        have hlt : (seg * SIEVE_SEGMENT_BYTES * 30 + p - 1) / p < c + 1 := by
          refine Nat.div_lt_of_lt_mul ?_
          have he : p * (c + 1) = p * c + p := by ring
          omega
        have h2 : (seg * SIEVE_SEGMENT_BYTES * 30 + p - 1) / p * p ≤ c * p :=
          Nat.mul_le_mul_right p (by omega)
        have h3 : c * p = p * c := Nat.mul_comm c p
        omega
      · rw [if_neg hplt]
        exact hpsq
    have hstart_mod :
        (if p * p < seg * SIEVE_SEGMENT_BYTES * 30 then
          (seg * SIEVE_SEGMENT_BYTES * 30 + p - 1) / p * p
        else p * p) % p = 0 := by
      by_cases hplt : p * p < seg * SIEVE_SEGMENT_BYTES * 30
      · rw [if_pos hplt]
        exact Nat.mul_mod_left _ _
      · rw [if_neg hplt]
        exact Nat.mul_mod_left _ _
    exact segClear_clears (by omega) hdvd hstart_le hstart_mod hnne hthr hco
      (by omega) (by omega) b

/-- The bitmap built by `sieve_create`, as an explicit segment fold. -/
theorem sieve_create_bitmap_eq (s1 s2 T : Nat) :
    (sieve_create s1 s2 T).bitmap =
      (List.range
          (((if T < 2 then 2 else T) / 30 + 1 + SIEVE_SEGMENT_BYTES - 1) /
            SIEVE_SEGMENT_BYTES)).foldl
        (fun bm seg =>
          segSieve (if T < 2 then 2 else T) (sievingPrimes (s2 + 1) (s1 + 1))
            ((if T < 2 then 2 else T) / 30 + 1) seg bm)
        (fun _ => true) := rfl

theorem sieve_create_threshold (s1 s2 T : Nat) :
    (sieve_create s1 s2 T).threshold = (if T < 2 then 2 else T) := rfl

/-- No prime coprime to 30 ever loses its bit in the created sieve. -/
theorem sieve_create_bitmap_prime {s1 s2 T q : Nat} (hq : Nat.Prime q)
    (hcoq : wheel30_is_coprime q = true) :
    (sieve_create s1 s2 T).bitmap (wheel30_bit_index q) = true := by
  rw [sieve_create_bitmap_eq]
  refine foldl_invariant (fun b : Nat → Bool => b (wheel30_bit_index q) = true) _ _ _ rfl ?_
  intro b seg hsegmem hb
  exact segSieve_sound (fun x hx => (sievingPrimes_mem_facts hx).1) hq hcoq b hb

/-- Every composite `7 ≤ n ≤ T` coprime to 30 has its bit cleared in the
created sieve, provided the integer square root seed was not too small. -/
theorem sieve_create_bitmap_composite {s1 s2 T n : Nat} (hT : 2 ≤ T)
    (hn7 : 7 ≤ n) (hn : n ≤ T) (hco : wheel30_is_coprime n = true)
    (hnp : ¬ Nat.Prime n) (hs1 : Nat.sqrt T ≤ s1 + 1) :
    (sieve_create s1 s2 T).bitmap (wheel30_bit_index n) = false := by
  rw [sieve_create_bitmap_eq, if_neg (show ¬ T < 2 by omega)]
  have hp : Nat.Prime (Nat.minFac n) := Nat.minFac_prime (by omega)
  have hdvd : Nat.minFac n ∣ n := Nat.minFac_dvd n
  have hpsq : Nat.minFac n * Nat.minFac n ≤ n := by
    have h := Nat.minFac_sq_le_self (by omega) hnp
    rwa [pow_two] at h
  obtain ⟨hcn2, hcn3, hcn5⟩ := (wheel30_is_coprime_iff n).mp hco
  have hmodp : ∀ d : Nat, d ∣ n → n % d = 0 := by
    intro d hdn
    obtain ⟨c, rfl⟩ := hdn
    exact Nat.mul_mod_right d c
  have hco_p : wheel30_is_coprime (Nat.minFac n) = true := by
    rw [wheel30_is_coprime_iff]
    refine ⟨?_, ?_, ?_⟩
    · have h2 : ¬ (2 ∣ Nat.minFac n) := by
        intro h2
        have := hmodp 2 (dvd_trans h2 hdvd)
        omega
      omega
    · intro h3
      exact absurd (hmodp 3 (dvd_trans (Nat.dvd_of_mod_eq_zero h3) hdvd)) (by omega)
    · intro h5
      exact absurd (hmodp 5 (dvd_trans (Nat.dvd_of_mod_eq_zero h5) hdvd)) (by omega)
  have hp5 : 5 < Nat.minFac n := by
    rcases Nat.lt_or_ge 5 (Nat.minFac n) with h | h
    · exact h
    · exfalso
      have h2 := hp.two_le
      have hdn := hmodp (Nat.minFac n) hdvd
      have hcases : Nat.minFac n = 2 ∨ Nat.minFac n = 3 ∨ Nat.minFac n = 4 ∨
          Nat.minFac n = 5 := by omega
      rcases hcases with h' | h' | h' | h'
      · rw [h'] at hdn
        omega
      · rw [h'] at hdn
        omega
      · exact absurd (h' ▸ hp) (by norm_num)
      · rw [h'] at hdn
        omega
  have hpst : Nat.minFac n ≤ s1 + 1 :=
    le_trans (Nat.le_sqrt.mpr (le_trans hpsq hn)) hs1
  have hpmem : Nat.minFac n ∈ sievingPrimes (s2 + 1) (s1 + 1) :=
    mem_sievingPrimes hp hco_p hp5 hpst
  have hpw := sievingPrimes_pairwise (s2 + 1) (s1 + 1)
  have hclear : ∀ bm : Nat → Bool,
      segSieve T (sievingPrimes (s2 + 1) (s1 + 1)) (T / 30 + 1)
        (n / 30 / SIEVE_SEGMENT_BYTES) bm (wheel30_bit_index n) = false := by
    intro bm
    refine segSieve_clears hpw hpmem hp.one_lt hdvd hpsq hco hn ?_ ?_ bm
    · simp only [SIEVE_SEGMENT_BYTES]
      omega
    · simp only [SIEVE_SEGMENT_BYTES]
      omega
  have hmem : n / 30 / SIEVE_SEGMENT_BYTES ∈
      List.range ((T / 30 + 1 + SIEVE_SEGMENT_BYTES - 1) / SIEVE_SEGMENT_BYTES) := by
    refine List.mem_range.mpr ?_
    simp only [SIEVE_SEGMENT_BYTES]
    omega
  exact @foldl_clears Nat
    (fun bm seg =>
      segSieve T (sievingPrimes (s2 + 1) (s1 + 1)) (T / 30 + 1) seg bm)
    (wheel30_bit_index n) (fun b sg hbj => segSieve_false_stays b hbj)
    (n / 30 / SIEVE_SEGMENT_BYTES) hclear
    (List.range ((T / 30 + 1 + SIEVE_SEGMENT_BYTES - 1) / SIEVE_SEGMENT_BYTES)) hmem
    (fun _ => true)

/-- C6 : For every threshold `T ≥ 2` (with an exact floating-point square
root seed, `√T ≤ s1 + 1`) and every `n ≤ T`, the wheel-30 sieve built by
`sieve_create` answers `sieve_is_prime` exactly: `n < 2` and multiples of
2, 3, 5 other than themselves are reported composite by the
short-circuit, `2`, `3`, `5` are reported prime, and for `n` coprime to
30 the stored bit equals the primality of `n`. -/
theorem C6_sieve_lookup_correct (s1 s2 T n : Nat) (hT : 2 ≤ T) (hn : n ≤ T)
    (hs1 : Nat.sqrt T ≤ s1 + 1) :
    sieve_is_prime (sieve_create s1 s2 T) n = decide (Nat.Prime n) := by
  rw [sieve_is_prime, sieve_create_threshold, if_neg (show ¬ T < 2 by omega)]
  rw [if_neg (show ¬ T < n by omega)]
  by_cases h2 : n < 2
  · rw [if_pos h2]
    have hnp : ¬ Nat.Prime n := fun hp => by have := hp.two_le; omega
    simp [hnp]
  · rw [if_neg h2]
    by_cases h235 : n = 2 ∨ n = 3 ∨ n = 5
    · rw [if_pos h235]
      have hpr : Nat.Prime n := by
        rcases h235 with rfl | rfl | rfl
        · exact Nat.prime_two
        · exact Nat.prime_three
        · exact (by norm_num : Nat.Prime 5)
      simp [hpr]
    · rw [if_neg h235]
      by_cases hm2 : n % 2 = 0
      · rw [if_pos hm2]
        have hnp : ¬ Nat.Prime n := by
          intro hp
          rcases hp.eq_one_or_self_of_dvd 2 (Nat.dvd_of_mod_eq_zero hm2) with h | h
          · omega
          · exact h235 (Or.inl h.symm)
        simp [hnp]
      · rw [if_neg hm2]
        by_cases hm3 : n % 3 = 0
        · rw [if_pos hm3]
          have hnp : ¬ Nat.Prime n := by
            intro hp
            rcases hp.eq_one_or_self_of_dvd 3 (Nat.dvd_of_mod_eq_zero hm3) with h | h
            · omega
            · exact h235 (Or.inr (Or.inl h.symm))
          simp [hnp]
        · rw [if_neg hm3]
          by_cases hm5 : n % 5 = 0
          · rw [if_pos hm5]
            have hnp : ¬ Nat.Prime n := by
              intro hp
              rcases hp.eq_one_or_self_of_dvd 5 (Nat.dvd_of_mod_eq_zero hm5) with h | h
              · omega
              · exact h235 (Or.inr (Or.inr h.symm))
            simp [hnp]
          · rw [if_neg hm5]
            have hco : wheel30_is_coprime n = true :=
              (wheel30_is_coprime_iff n).mpr ⟨by omega, hm3, hm5⟩
            have h7 : 7 ≤ n := by omega
            by_cases hprime : Nat.Prime n
            · rw [sieve_create_bitmap_prime hprime hco]
              simp [hprime]
            · rw [sieve_create_bitmap_composite hT h7 hn hco hprime hs1]
              simp [hprime]

theorem C6_sieve_lookup_correct_witness :
    2 ≤ 30 ∧ 29 ≤ 30 ∧ Nat.sqrt 30 ≤ 5 + 1 ∧
      sieve_is_prime (sieve_create 5 2 30) 29 = decide (Nat.Prime 29) :=
  ⟨by decide, by decide,
    by
      have h := Nat.sqrt_lt.mpr (show (30 : Nat) < 7 * 7 by norm_num)
      omega,
    C6_sieve_lookup_correct 5 2 30 29 (by decide) (by decide)
      (by
        have h := Nat.sqrt_lt.mpr (show (30 : Nat) < 7 * 7 by norm_num)
        omega)⟩

/-! ### C3 : the batched verifier vs the per-n solver -/

set_option maxRecDepth 40000 in
set_option maxHeartbeats 4000000 in
/-- Refutation of the round-trip identity as stated: with the composite
bitmap's entry content carrying a stale bit (the C code `malloc`s it and
`batch_sieve_reset` does not clear it; the first descent passes with
`a² ≥ 8·n_start + 3` return before the clearing code), the batch over
`n ∈ {2, 3, 4}` records `(3, 13)` for `n = 4` while the per-n solver
returns `(5, 5)`. -/
theorem C3_batch_stale_bitmap_diverges :
    (batch_process 5 2 3 2 3 (batchInit (fun i => i == 2))).map
        (fun st => (st.solved 2, st.solA 2, st.solP 2)) = some (true, 3, 13) ∧
    find_solution 5 2 4 = some (some (5, 5)) := by
  constructor
  · decide
  · decide

/-- Branch analysis of the trial-division prefilter: result 1 means the
candidate is itself a listed prime, 0 means a listed value properly
divides it, anything else means no listed value divides it. -/
theorem trialDivList_nil (c : Nat) : trialDivList c [] = 2 := rfl

theorem trialDivList_cons (c p : Nat) (ps : List Nat) :
    trialDivList c (p :: ps) =
      if c % p = 0 then (if c = p then 1 else 0) else trialDivList c ps := rfl

theorem trialDivList_cases (c : Nat) : ∀ l : List Nat,
    (trialDivList c l = 1 → c ∈ l) ∧
    (trialDivList c l = 0 → ∃ p ∈ l, c % p = 0 ∧ c ≠ p) ∧
    (trialDivList c l ≠ 0 → trialDivList c l ≠ 1 → ∀ p ∈ l, c % p ≠ 0) := by
  intro l
  induction l with
  | nil =>
    refine ⟨fun h => absurd h (by rw [trialDivList_nil]; norm_num),
      fun h => absurd h (by rw [trialDivList_nil]; norm_num), ?_⟩
    intro _ _ p hp
    cases hp
  | cons p ps ih =>
    obtain ⟨ih1, ih0, ih2⟩ := ih
    by_cases hmod : c % p = 0
    · by_cases heq : c = p
      · refine ⟨fun _ => ?_, fun h => ?_, fun _ h2 => ?_⟩
        · exact heq ▸ List.mem_cons_self _ _
        · rw [trialDivList_cons, if_pos hmod, if_pos heq] at h
          exact absurd h (by norm_num)
        · exact absurd (by rw [trialDivList_cons, if_pos hmod, if_pos heq]) h2
      · refine ⟨fun h => ?_, fun _ => ?_, fun h0 _ => ?_⟩
        · rw [trialDivList_cons, if_pos hmod, if_neg heq] at h
          exact absurd h (by norm_num)
        · exact ⟨p, List.mem_cons_self _ _, hmod, heq⟩
        · exact absurd (by rw [trialDivList_cons, if_pos hmod, if_neg heq]) h0
    · have he : trialDivList c (p :: ps) = trialDivList c ps := by
        rw [trialDivList_cons, if_neg hmod]
      rw [he]
      refine ⟨fun h => List.mem_cons_of_mem _ (ih1 h), fun h => ?_, fun h0 h1 => ?_⟩
      · obtain ⟨q, hq, hq2⟩ := ih0 h
        exact ⟨q, List.mem_cons_of_mem _ hq, hq2⟩
      · intro q hq
        rcases List.mem_cons.mp hq with rfl | hq'
        · exact hmod
        · exact ih2 h0 h1 q hq'

set_option maxRecDepth 100000 in
set_option maxHeartbeats 1000000 in
theorem TRIAL_PRIMES_all_prime :
    TRIAL_PRIMES.all is_prime_fj64_fast = true := by decide

set_option maxRecDepth 100000 in
set_option maxHeartbeats 1000000 in
theorem small_has_trial_divisor :
    ∀ c < 128, 2 ≤ c → c % 2 = 1 → (TRIAL_PRIMES.any fun p => c % p == 0) = true := by
  decide

/-- On odd candidates `≥ 2` — the only ones this program produces, since
every candidate is `(N - a²)/2 ≡ 1 (mod 4)` — the solver's prefiltered
tester agrees with the primality oracle.  (The trial list omits 2, so the
agreement genuinely needs oddness: `is_candidate_prime 4 = true`.) -/
theorem is_candidate_prime_eq_oracle {c : Nat} (hc : 2 ≤ c) (hodd : c % 2 = 1) :
    is_candidate_prime c = is_prime_fj64_fast c := by
  obtain ⟨h1, h0, h2⟩ := trialDivList_cases c TRIAL_PRIMES
  show (if trial_division_check c = 0 then false
    else if trial_division_check c = 1 then true
    else if c ≤ 127 then true
    else is_prime_fj64_fast c) = is_prime_fj64_fast c
  by_cases ht0 : trial_division_check c = 0
  · rw [if_pos ht0]
    obtain ⟨p, hpmem, hpdvd, hpne⟩ := h0 ht0
    have hpprime : Nat.Prime p := by
      have := List.all_eq_true.mp TRIAL_PRIMES_all_prime p hpmem
      exact (is_prime_fj64_fast_iff p).mp this
    have hnot : ¬ Nat.Prime c := by
      intro hcp
      rcases hcp.eq_one_or_self_of_dvd p (Nat.dvd_of_mod_eq_zero hpdvd) with h | h
      · exact hpprime.ne_one h
      · exact hpne h.symm
    symm
    rw [Bool.eq_false_iff]
    intro hb
    exact hnot ((is_prime_fj64_fast_iff c).mp hb)
  · rw [if_neg ht0]
    by_cases ht1 : trial_division_check c = 1
    · rw [if_pos ht1]
      have hcmem : c ∈ TRIAL_PRIMES := h1 ht1
      have : Nat.Prime c := by
        have := List.all_eq_true.mp TRIAL_PRIMES_all_prime c hcmem
        exact (is_prime_fj64_fast_iff c).mp this
      symm
      rw [is_prime_fj64_fast_iff]
      exact this
    · rw [if_neg ht1]
      by_cases h127 : c ≤ 127
      · exfalso
        have hdvd := small_has_trial_divisor c (by omega) hc hodd
        obtain ⟨p, hpmem, hpdvd⟩ := List.any_eq_true.mp hdvd
        exact h2 ht0 ht1 p hpmem (by simpa using hpdvd)
      · rw [if_neg h127]

/-- An odd square is `1` modulo 8. -/
theorem odd_sq_mod8 {a : Nat} (ha : a % 2 = 1) : a * a % 8 = 1 := by
  obtain ⟨t, rfl⟩ : ∃ t, a = 2 * t + 1 := ⟨a / 2, by omega⟩
  obtain ⟨u, hu⟩ := Nat.even_mul_succ_self t
  have he : (2 * t + 1) * (2 * t + 1) = 4 * (t * (t + 1)) + 1 := by ring
  rw [he, hu]
  omega

theorem solveFrom_eq (N a : Nat) :
    solveFrom N a =
      if 2 ≤ (N - a * a) / 2 ∧ is_prime_fj64_fast ((N - a * a) / 2) = true then
        some (a, (N - a * a) / 2)
      else if a < 3 then none
      else solveFrom N (a - 2) := by
  match a with
  | 0 => simp [solveFrom]
  | 1 => simp [solveFrom]
  | 2 => simp [solveFrom]
  | a + 3 =>
    have h3 : ¬(a + 3 < 3) := by omega
    have h2 : a + 3 - 2 = a + 1 := by omega
    simp only [solveFrom, h3, if_false, h2]

/-- From any odd start whose square is within `N`, the solver's wrapped
walk computes exactly the reference descent `solveFrom`. -/
theorem findWalkWith_solveFrom {N : Nat} (hNW : N < W64) (hN8 : N % 8 = 3) :
    ∀ a, a % 2 = 1 → a * a ≤ N →
      findWalkWith is_candidate_prime a ((N - a * a) / 2) (2 * (a - 1) % W64) =
        solveFrom N a := by
  intro a
  induction a using Nat.strong_induction_on with
  | _ a ih =>
    intro ha haN
    rw [findWalkWith_eq, solveFrom_eq]
    have hsq8 : a * a % 8 = 1 := odd_sq_mod8 ha
    have ha32 : a < 4294967296 := by
      have := lt_two32_of_sq_lt (lt_of_le_of_lt haN hNW)
      omega
    have hparity : 2 ≤ (N - a * a) / 2 → (N - a * a) / 2 % 2 = 1 := by
      intro h1
      omega
    have hcond : (2 ≤ (N - a * a) / 2 ∧ is_candidate_prime ((N - a * a) / 2) = true) ↔
        (2 ≤ (N - a * a) / 2 ∧ is_prime_fj64_fast ((N - a * a) / 2) = true) :=
      and_congr_right fun h1 => by rw [is_candidate_prime_eq_oracle h1 (hparity h1)]
    by_cases hc : 2 ≤ (N - a * a) / 2 ∧ is_prime_fj64_fast ((N - a * a) / 2) = true
    · rw [if_pos (hcond.mpr hc), if_pos hc]
    · rw [if_neg (fun h => hc (hcond.mp h)), if_neg hc]
      by_cases h3 : a < 3
      · rw [if_pos h3, if_pos h3]
      · rw [if_neg h3, if_neg h3]
        have hexp : (a - 2) * (a - 2) + 4 * a = a * a + 4 := by
          nlinarith [Nat.sub_add_cancel (show 2 ≤ a by omega)]
        have hc1 : ((N - a * a) / 2 + 2 * (a - 1) % W64) % W64 =
            (N - (a - 2) * (a - 2)) / 2 := by
          rw [W64_lit] at hNW ⊢
          omega
        have hd1 : (2 * (a - 1) % W64 + (W64 - 4)) % W64 = 2 * (a - 2 - 1) % W64 := by
          rw [W64_lit]
          omega
        rw [hc1, hd1]
        exact ih (a - 2) (by omega) (by omega) (by omega)

/-- `find_solution_from_N`, at an odd `a_max` whose square is within
`N < 2^64`, returns the reference descent's answer. -/
theorem find_solution_from_N_eq_solveFrom {N a_max : Nat} (hNW : N < W64)
    (hN8 : N % 8 = 3) (hA : a_max % 2 = 1) (hA2 : a_max * a_max ≤ N) :
    find_solution_from_N N a_max = solveFrom N a_max := by
  rw [find_solution_from_N]
  have hini : sub64 (N % W64) (a_max * a_max) / 2 = (N - a_max * a_max) / 2 := by
    rw [sub64, Nat.mod_eq_of_lt hNW, Nat.mod_eq_of_lt (lt_of_le_of_lt hA2 hNW)]
    rw [W64_lit] at hNW ⊢
    omega
  rw [hini]
  exact findWalkWith_solveFrom hNW hN8 a_max hA hA2

/-- `oddSqrtSpec N` is the largest odd number whose square is at most
`N`. -/
theorem oddSqrtSpec_spec {N : Nat} (h1 : 1 ≤ N) :
    oddSqrtSpec N % 2 = 1 ∧ oddSqrtSpec N * oddSqrtSpec N ≤ N ∧
      ∀ x, x % 2 = 1 → x * x ≤ N → x ≤ oddSqrtSpec N := by
  have hs1 : 1 ≤ Nat.sqrt N := by
    rw [Nat.le_sqrt]
    omega
  have hsle : Nat.sqrt N * Nat.sqrt N ≤ N := Nat.sqrt_le N
  rw [oddSqrtSpec]
  by_cases he : Nat.sqrt N % 2 = 0
  · rw [if_pos he]
    refine ⟨by omega, ?_, ?_⟩
    · calc (Nat.sqrt N - 1) * (Nat.sqrt N - 1) ≤ Nat.sqrt N * Nat.sqrt N :=
        Nat.mul_le_mul (by omega) (by omega)
      _ ≤ N := hsle
    · intro x hx hxx
      have := Nat.le_sqrt.mpr hxx
      omega
  · rw [if_neg he]
    exact ⟨by omega, hsle, fun x hx hxx => Nat.le_sqrt.mpr hxx⟩

/-- The reference descent started at any odd `a` at or above the largest
odd square root only skips failing tests down to that root. -/
theorem solveFrom_drop {N : Nat} (h1 : 1 ≤ N) :
    ∀ a, a % 2 = 1 → oddSqrtSpec N ≤ a → solveFrom N a = solveFrom N (oddSqrtSpec N) := by
  obtain ⟨hso, hsle, hmax⟩ := oddSqrtSpec_spec h1
  intro a
  induction a using Nat.strong_induction_on with
  | _ a ih =>
    intro ha hge
    rcases Nat.eq_or_lt_of_le hge with heq | hlt
    · rw [heq]
    · have haN : N < a * a := by
        by_contra hle
        push_neg at hle
        exact absurd (hmax a ha hle) (by omega)
      rw [solveFrom_eq]
      have hc0 : (N - a * a) / 2 = 0 := by omega
      rw [hc0, if_neg (by simp), if_neg (show ¬ a < 3 by omega)]
      exact ih (a - 2) (by omega) (by omega) (by omega)

set_option maxRecDepth 100000 in
set_option maxHeartbeats 2000000 in
theorem BATCH_SMALL_PRIMES_facts :
    BATCH_SMALL_PRIMES.all
      (fun q => is_prime_fj64_fast q && (q == 2 || 4 * inv4_of q % q == 1)) = true := by
  decide

/-- Every index in the marking progression of `batch_sieve_for_a` carries
a candidate divisible by the sieving prime `q`. -/
theorem inv4_progression {p_start q : Nat} (hq1 : 1 < q) (hinv : 4 * inv4_of q % q = 1)
    (k : Nat) :
    q ∣ p_start + 4 * (inv4_of q * ((q - p_start % q) % q) % q + k * q) := by
  have hr_lt : p_start % q < q := Nat.mod_lt _ (by omega)
  have hone : 4 * inv4_of q ≡ 1 [MOD q] := by
    show 4 * inv4_of q % q = 1 % q
    rw [hinv, Nat.mod_eq_of_lt hq1]
  have c1 : 4 * (inv4_of q * ((q - p_start % q) % q) % q) ≡
      4 * inv4_of q * ((q - p_start % q) % q) [MOD q] := by
    have := (Nat.mod_modEq (inv4_of q * ((q - p_start % q) % q)) q).mul_left 4
    refine this.trans ?_
    rw [← Nat.mul_assoc]
  have c2 : 4 * inv4_of q * ((q - p_start % q) % q) ≡
      1 * ((q - p_start % q) % q) [MOD q] := hone.mul_right _
  have c3 : 4 * (inv4_of q * ((q - p_start % q) % q) % q) ≡
      (q - p_start % q) % q [MOD q] := by
    refine (c1.trans c2).trans ?_
    rw [Nat.one_mul]
  have c4 : p_start + 4 * (inv4_of q * ((q - p_start % q) % q) % q + k * q) ≡
      p_start % q + (q - p_start % q) % q [MOD q] := by
    have e1 : p_start + 4 * (inv4_of q * ((q - p_start % q) % q) % q + k * q) =
        p_start + 4 * (inv4_of q * ((q - p_start % q) % q) % q) + 4 * k * q := by ring
    rw [e1]
    have c5 : p_start + 4 * (inv4_of q * ((q - p_start % q) % q) % q) + 4 * k * q ≡
        p_start + 4 * (inv4_of q * ((q - p_start % q) % q) % q) [MOD q] :=
      (Nat.modEq_zero_iff_dvd.mpr ⟨4 * k, by ring⟩).add_left _
    exact c5.trans ((Nat.mod_modEq p_start q).symm.add c3)
  have c6 : p_start % q + (q - p_start % q) % q ≡ 0 [MOD q] := by
    by_cases hr : p_start % q = 0
    · rw [hr, Nat.zero_add, Nat.sub_zero, Nat.mod_self]
    · have h1 : (q - p_start % q) % q = q - p_start % q :=
        Nat.mod_eq_of_lt (by omega)
      rw [h1]
      have h2 : p_start % q + (q - p_start % q) = q := by omega
      rw [h2]
      exact Nat.modEq_zero_iff_dvd.mpr dvd_rfl
  exact Nat.modEq_zero_iff_dvd.mp (c4.trans c6)

/-- `batchMark` keeps the solved flags and only sets composite bits at
unsolved indices whose candidate is a proper multiple of `q`. -/
theorem batchMark_composite_sound {bsz p_start q : Nat} (hq1 : 1 < q)
    (hinv : 4 * inv4_of q % q = 1) (st : BatchState) :
    (batchMark bsz p_start q st).solved = st.solved ∧
    ∀ idx, (batchMark bsz p_start q st).composite idx = true →
      st.composite idx = true ∨
      (p_start + 4 * idx ≠ q ∧ q ∣ p_start + 4 * idx) := by
  rw [batchMark]
  refine foldl_invariant
    (fun st' : BatchState => st'.solved = st.solved ∧
      ∀ idx, st'.composite idx = true →
        st.composite idx = true ∨
        (p_start + 4 * idx ≠ q ∧ q ∣ p_start + 4 * idx))
    _ _ _ ⟨rfl, fun _ h => Or.inl h⟩ ?_
  intro st' e hmem hP
  obtain ⟨hsv, hcomp⟩ := hP
  obtain ⟨k, hek, -⟩ := (mem_stepsUpto (show 0 < q by omega)).mp hmem
  by_cases hcnd : ¬ st'.solved e = true ∧ p_start + 4 * e ≠ q
  · rw [if_pos hcnd]
    refine ⟨hsv, ?_⟩
    intro idx hidx
    have hidx' : (if idx = e then true else st'.composite idx) = true := hidx
    by_cases hie : idx = e
    · subst hie
      refine Or.inr ⟨hcnd.2, ?_⟩
      rw [hek]
      exact inv4_progression hq1 hinv k
    · rw [if_neg hie] at hidx'
      exact hcomp idx hidx'
  · rw [if_neg hcnd]
    exact ⟨hsv, hcomp⟩

/-- The zeta-expanded shape of `batch_sieve_for_a`. -/
theorem batch_sieve_for_a_eq (n_start bsz : Nat) (st : BatchState) (a : Nat) :
    batch_sieve_for_a n_start bsz st a =
      if (8 * n_start + 3) % W64 ≤ a * a % W64 then st
      else
        BATCH_SMALL_PRIMES.foldl
          (fun st' q =>
            if q = 2 then st'
            else batchMark bsz (((8 * n_start + 3) % W64 - a * a % W64) / 2) q st')
          { st with composite := fun _ => false } := rfl

/-- In a sieving pass (`a² < 8·n_start + 3`, no wrapping), every set
composite bit points at a candidate the primality oracle rejects. -/
theorem batch_sieve_for_a_sound {n_start bsz a : Nat} (st : BatchState)
    (hNs : 8 * n_start + 3 < W64) (ha2 : a * a < W64)
    (hlt : a * a < 8 * n_start + 3) :
    ∀ idx, (batch_sieve_for_a n_start bsz st a).composite idx = true →
      is_prime_fj64_fast ((8 * n_start + 3 - a * a) / 2 + 4 * idx) = false := by
  rw [batch_sieve_for_a_eq, Nat.mod_eq_of_lt hNs, Nat.mod_eq_of_lt ha2,
    if_neg (show ¬ 8 * n_start + 3 ≤ a * a by omega)]
  have hmain : ∀ st'' : BatchState,
      (∀ idx, st''.composite idx = true →
        is_prime_fj64_fast ((8 * n_start + 3 - a * a) / 2 + 4 * idx) = false) →
      ∀ idx,
        (BATCH_SMALL_PRIMES.foldl
          (fun st' q =>
            if q = 2 then st'
            else batchMark bsz ((8 * n_start + 3 - a * a) / 2) q st') st'').composite idx =
          true →
        is_prime_fj64_fast ((8 * n_start + 3 - a * a) / 2 + 4 * idx) = false := by
    intro st'' h0
    refine foldl_invariant
      (fun st' : BatchState => ∀ idx, st'.composite idx = true →
        is_prime_fj64_fast ((8 * n_start + 3 - a * a) / 2 + 4 * idx) = false)
      _ _ _ h0 ?_
    intro st' q hqmem hinv
    by_cases hq2 : q = 2
    · rw [if_pos hq2]
      exact hinv
    · rw [if_neg hq2]
      have hfacts := List.all_eq_true.mp BATCH_SMALL_PRIMES_facts q hqmem
      rw [Bool.and_eq_true, Bool.or_eq_true] at hfacts
      have hqprime : Nat.Prime q := (is_prime_fj64_fast_iff q).mp hfacts.1
      have hinv4 : 4 * inv4_of q % q = 1 := by
        rcases hfacts.2 with h | h
        · exact absurd (by simpa using h) hq2
        · simpa using h
      obtain ⟨-, hsound⟩ :=
        @batchMark_composite_sound bsz ((8 * n_start + 3 - a * a) / 2) q hqprime.one_lt hinv4 st'
      intro idx hidx
      rcases hsound idx hidx with h | ⟨hne, hdvd⟩
      · exact hinv idx h
      · rw [Bool.eq_false_iff]
        intro hb
        have hp := (is_prime_fj64_fast_iff _).mp hb
        rcases hp.eq_one_or_self_of_dvd q hdvd with h1 | h1
        · exact hqprime.ne_one h1
        · exact hne h1.symm
  intro idx
  exact hmain _ (fun idx h => absurd h (by simp)) idx

/-- The zeta-expanded shape of `batch_check_remaining`. -/
theorem batch_check_remaining_eq (n_start bsz : Nat) (st : BatchState) (a : Nat) :
    batch_check_remaining n_start bsz st a =
      (List.range bsz).foldl
        (fun st idx =>
          if st.solved idx = true then st
          else if batch_is_composite bsz st idx = true then st
          else if (8 * (n_start + idx) + 3) % W64 ≤ a * a % W64 then st
          else if ((8 * (n_start + idx) + 3) % W64 - a * a % W64) / 2 < 2 then st
          else if is_prime_fj64_fast (((8 * (n_start + idx) + 3) % W64 - a * a % W64) / 2) =
              true then
            { st with
              solved := fun j => if j = idx then true else st.solved j,
              solA := fun j => if j = idx then a else st.solA j,
              solP := fun j => if j = idx then
                  ((8 * (n_start + idx) + 3) % W64 - a * a % W64) / 2
                else st.solP j,
              totalSolved := st.totalSolved + 1 }
          else st)
        st := rfl

/-- Setting one previously-false flag inside the counted range increments
the count. -/
theorem countP_update_true {bsz idx : Nat} (f : Nat → Bool) (hidx : idx < bsz)
    (hf : f idx = false) :
    (List.range bsz).countP (fun i => if i = idx then true else f i) =
      (List.range bsz).countP (fun i => f i) + 1 := by
  induction bsz with
  | zero => omega
  | succ k ih =>
    rw [List.range_succ, List.countP_append, List.countP_append]
    by_cases hk : idx = k
    · subst hk
      have h1 : (List.range idx).countP (fun i => if i = idx then true else f i) =
          (List.range idx).countP (fun i => f i) :=
        List.countP_congr fun i hi => by
          rw [if_neg (by have := List.mem_range.mp hi; omega)]
      rw [h1]
      simp [List.countP_cons, hf]
    · have hik : idx < k := by omega
      rw [ih hik]
      have h2 : ([k] : List Nat).countP (fun i => if i = idx then true else f i) =
          ([k] : List Nat).countP (fun i => f i) :=
        List.countP_congr fun i hi => by
          have hi' : i = k := by simpa using hi
          subst hi'
          rw [if_neg (fun h => hk h.symm)]
      omega

/-- `batch_check_remaining` keeps the solved counter equal to the number
of solved indices in range. -/
theorem batch_check_total (n_start bsz a : Nat) (st : BatchState)
    (h : st.totalSolved = (List.range bsz).countP (fun i => st.solved i)) :
    (batch_check_remaining n_start bsz st a).totalSolved =
      (List.range bsz).countP (fun i => (batch_check_remaining n_start bsz st a).solved i) := by
  rw [batch_check_remaining_eq]
  refine foldl_invariant
    (fun st' : BatchState =>
      st'.totalSolved = (List.range bsz).countP (fun i => st'.solved i))
    _ _ _ h ?_
  intro st' idx hmem hP
  have hidx : idx < bsz := List.mem_range.mp hmem
  by_cases h1 : st'.solved idx = true
  · rw [if_pos h1]
    exact hP
  · rw [if_neg h1]
    have h1' : st'.solved idx = false := Bool.eq_false_iff.mpr h1
    by_cases h2 : batch_is_composite bsz st' idx = true
    · rw [if_pos h2]
      exact hP
    · rw [if_neg h2]
      by_cases h3 : (8 * (n_start + idx) + 3) % W64 ≤ a * a % W64
      · rw [if_pos h3]
        exact hP
      · rw [if_neg h3]
        by_cases h4 : ((8 * (n_start + idx) + 3) % W64 - a * a % W64) / 2 < 2
        · rw [if_pos h4]
          exact hP
        · rw [if_neg h4]
          by_cases h5 :
              is_prime_fj64_fast (((8 * (n_start + idx) + 3) % W64 - a * a % W64) / 2) = true
          · rw [if_pos h5]
            show st'.totalSolved + 1 =
              (List.range bsz).countP (fun i => if i = idx then true else st'.solved i)
            rw [countP_update_true (fun i => st'.solved i) hidx h1', hP]
          · rw [if_neg h5]
            exact hP

/-- Complete per-index description of one checking pass: already-solved
indices keep their record; an unsolved index whose candidate passes all
the gates is recorded with `(a, p)`; every other unsolved index stays
unsolved.  The composite bitmap is untouched. -/
theorem batch_check_foldl_spec (n_start bsz a : Nat)
    (F : BatchState → Nat → BatchState)
    (hF : F = fun st idx =>
      if st.solved idx = true then st
      else if batch_is_composite bsz st idx = true then st
      else if (8 * (n_start + idx) + 3) % W64 ≤ a * a % W64 then st
      else if ((8 * (n_start + idx) + 3) % W64 - a * a % W64) / 2 < 2 then st
      else if is_prime_fj64_fast (((8 * (n_start + idx) + 3) % W64 - a * a % W64) / 2) =
          true then
        { st with
          solved := fun j => if j = idx then true else st.solved j,
          solA := fun j => if j = idx then a else st.solA j,
          solP := fun j => if j = idx then
              ((8 * (n_start + idx) + 3) % W64 - a * a % W64) / 2
            else st.solP j,
          totalSolved := st.totalSolved + 1 }
      else st) :
    ∀ l : List Nat, l.Nodup → ∀ st : BatchState,
      (l.foldl F st).composite = st.composite ∧
      (∀ i, i ∉ l →
        (l.foldl F st).solved i = st.solved i ∧
        (l.foldl F st).solA i = st.solA i ∧
        (l.foldl F st).solP i = st.solP i) ∧
      (∀ i, i ∈ l →
        (st.solved i = true →
          (l.foldl F st).solved i = true ∧
          (l.foldl F st).solA i = st.solA i ∧
          (l.foldl F st).solP i = st.solP i) ∧
        (st.solved i = false →
          batch_is_composite bsz st i = false →
          ¬ (8 * (n_start + i) + 3) % W64 ≤ a * a % W64 →
          ¬ ((8 * (n_start + i) + 3) % W64 - a * a % W64) / 2 < 2 →
          is_prime_fj64_fast (((8 * (n_start + i) + 3) % W64 - a * a % W64) / 2) = true →
          (l.foldl F st).solved i = true ∧
          (l.foldl F st).solA i = a ∧
          (l.foldl F st).solP i = ((8 * (n_start + i) + 3) % W64 - a * a % W64) / 2) ∧
        (st.solved i = false →
          (batch_is_composite bsz st i = true ∨
            (8 * (n_start + i) + 3) % W64 ≤ a * a % W64 ∨
            ((8 * (n_start + i) + 3) % W64 - a * a % W64) / 2 < 2 ∨
            is_prime_fj64_fast (((8 * (n_start + i) + 3) % W64 - a * a % W64) / 2) = false) →
          (l.foldl F st).solved i = false)) := by
  intro l
  induction l with
  | nil =>
    intro _ st
    refine ⟨rfl, fun i _ => ⟨rfl, rfl, rfl⟩, fun i hi => absurd hi (List.not_mem_nil i)⟩
  | cons idx t ih =>
    intro hnd st
    have hidxt : idx ∉ t := (List.nodup_cons.mp hnd).1
    have hndt : t.Nodup := (List.nodup_cons.mp hnd).2
    rw [List.foldl_cons]
    by_cases h1 : st.solved idx = true
    · have e : F st idx = st := by
        simp only [hF]
        rw [if_pos h1]
      rw [e]
      obtain ⟨ihc, ihout, ihin⟩ := ih hndt st
      refine ⟨ihc, fun i hi => ihout i (fun h => hi (List.mem_cons_of_mem _ h)), ?_⟩
      intro i hi
      rcases List.mem_cons.mp hi with rfl | hit
      · obtain ⟨ho1, ho2, ho3⟩ := ihout i hidxt
        exact ⟨fun _ => ⟨by rw [ho1, h1], ho2, ho3⟩,
          fun hf => absurd h1 (by rw [hf]; simp),
          fun hf => absurd h1 (by rw [hf]; simp)⟩
      · exact ihin i hit
    · have h1' : st.solved idx = false := Bool.eq_false_iff.mpr h1
      by_cases h2 : batch_is_composite bsz st idx = true
      · have e : F st idx = st := by
          simp only [hF]
          rw [if_neg h1, if_pos h2]
        rw [e]
        obtain ⟨ihc, ihout, ihin⟩ := ih hndt st
        refine ⟨ihc, fun i hi => ihout i (fun h => hi (List.mem_cons_of_mem _ h)), ?_⟩
        intro i hi
        rcases List.mem_cons.mp hi with rfl | hit
        · obtain ⟨ho1, ho2, ho3⟩ := ihout i hidxt
          exact ⟨fun ht => absurd ht h1,
            fun _ hc => absurd h2 (by rw [hc]; simp),
            fun _ _ => by rw [ho1, h1']⟩
        · exact ihin i hit
      · by_cases h3 : (8 * (n_start + idx) + 3) % W64 ≤ a * a % W64
        · have e : F st idx = st := by
            simp only [hF]
            rw [if_neg h1, if_neg h2, if_pos h3]
          rw [e]
          obtain ⟨ihc, ihout, ihin⟩ := ih hndt st
          refine ⟨ihc, fun i hi => ihout i (fun h => hi (List.mem_cons_of_mem _ h)), ?_⟩
          intro i hi
          rcases List.mem_cons.mp hi with rfl | hit
          · obtain ⟨ho1, ho2, ho3⟩ := ihout i hidxt
            exact ⟨fun ht => absurd ht h1,
              fun _ _ hn => absurd h3 hn,
              fun _ _ => by rw [ho1, h1']⟩
          · exact ihin i hit
        · by_cases h4 : ((8 * (n_start + idx) + 3) % W64 - a * a % W64) / 2 < 2
          · have e : F st idx = st := by
              simp only [hF]
              rw [if_neg h1, if_neg h2, if_neg h3, if_pos h4]
            rw [e]
            obtain ⟨ihc, ihout, ihin⟩ := ih hndt st
            refine ⟨ihc, fun i hi => ihout i (fun h => hi (List.mem_cons_of_mem _ h)), ?_⟩
            intro i hi
            rcases List.mem_cons.mp hi with rfl | hit
            · obtain ⟨ho1, ho2, ho3⟩ := ihout i hidxt
              exact ⟨fun ht => absurd ht h1,
                fun _ _ _ hn => absurd h4 hn,
                fun _ _ => by rw [ho1, h1']⟩
            · exact ihin i hit
          · by_cases h5 : is_prime_fj64_fast
                (((8 * (n_start + idx) + 3) % W64 - a * a % W64) / 2) = true
            · have e : F st idx =
                  { st with
                    solved := fun j => if j = idx then true else st.solved j,
                    solA := fun j => if j = idx then a else st.solA j,
                    solP := fun j => if j = idx then
                        ((8 * (n_start + idx) + 3) % W64 - a * a % W64) / 2
                      else st.solP j,
                    totalSolved := st.totalSolved + 1 } := by
                simp only [hF]
                rw [if_neg h1, if_neg h2, if_neg h3, if_neg h4, if_pos h5]
              rw [e]
              obtain ⟨ihc, ihout, ihin⟩ := ih hndt _
              refine ⟨ihc, ?_, ?_⟩
              · intro i hi
                have hiidx : i ≠ idx := fun h => hi (h ▸ List.mem_cons_self _ _)
                have hit : i ∉ t := fun h => hi (List.mem_cons_of_mem _ h)
                obtain ⟨ho1, ho2, ho3⟩ := ihout i hit
                refine ⟨?_, ?_, ?_⟩
                · rw [ho1]
                  exact if_neg hiidx
                · rw [ho2]
                  exact if_neg hiidx
                · rw [ho3]
                  exact if_neg hiidx
              · intro i hi
                rcases List.mem_cons.mp hi with rfl | hit
                · obtain ⟨ho1, ho2, ho3⟩ := ihout i hidxt
                  refine ⟨fun ht => absurd ht h1, ?_, ?_⟩
                  · intro _ _ _ _ _
                    refine ⟨?_, ?_, ?_⟩
                    · rw [ho1]
                      exact if_pos rfl
                    · rw [ho2]
                      exact if_pos rfl
                    · rw [ho3]
                      exact if_pos rfl
                  · intro _ hdisj
                    rcases hdisj with h | h | h | h
                    · exact absurd h h2
                    · exact absurd h h3
                    · exact absurd h h4
                    · exact absurd h5 (by rw [h]; simp)
                · have hiidx : i ≠ idx := fun h => hidxt (h ▸ hit)
                  have hsv : (if i = idx then true else st.solved i) = st.solved i :=
                    if_neg hiidx
                  obtain ⟨ihin1, ihin2, ihin3⟩ := ihin i hit
                  refine ⟨?_, ?_, ?_⟩
                  · intro ht
                    obtain ⟨r1, r2, r3⟩ := ihin1
                      (by show (if i = idx then true else st.solved i) = true
                          rw [hsv]
                          exact ht)
                    exact ⟨r1, by rw [r2]; exact if_neg hiidx, by rw [r3]; exact if_neg hiidx⟩
                  · intro hf hc hn hp ho
                    exact ihin2
                      (by show (if i = idx then true else st.solved i) = false
                          rw [hsv]
                          exact hf) hc hn hp ho
                  · intro hf hdisj
                    exact ihin3
                      (by show (if i = idx then true else st.solved i) = false
                          rw [hsv]
                          exact hf) hdisj
            · have e : F st idx = st := by
                simp only [hF]
                rw [if_neg h1, if_neg h2, if_neg h3, if_neg h4, if_neg h5]
              rw [e]
              obtain ⟨ihc, ihout, ihin⟩ := ih hndt st
              refine ⟨ihc, fun i hi => ihout i (fun h => hi (List.mem_cons_of_mem _ h)), ?_⟩
              intro i hi
              rcases List.mem_cons.mp hi with rfl | hit
              · obtain ⟨ho1, ho2, ho3⟩ := ihout i hidxt
                exact ⟨fun ht => absurd ht h1,
                  fun _ _ _ _ ho => absurd ho h5,
                  fun _ _ => by rw [ho1, h1']⟩
              · exact ihin i hit

/-- The zeta-expanded step of `batchLoop`. -/
theorem batchLoop_succ (n_start bsz fuel a : Nat) (st : BatchState) :
    batchLoop n_start bsz (fuel + 1) a st =
      if a = 0 then some st
      else
        if bsz ≤ (batch_check_remaining n_start bsz
            (batch_sieve_for_a n_start bsz st a) a).totalSolved then
          some (batch_check_remaining n_start bsz (batch_sieve_for_a n_start bsz st a) a)
        else
          batchLoop n_start bsz fuel ((a + (W64 - 2)) % W64)
            (batch_check_remaining n_start bsz (batch_sieve_for_a n_start bsz st a) a) := rfl

/-- Main correctness of the descending a-loop on a clean composite
bitmap: if every index of the batch has a genuine solution in the descent
from `A` (as described by the reference descent `solveFrom`), the loop
terminates by the all-solved break and records exactly the reference
solutions. -/
theorem batchLoop_correct {n_start bsz A : Nat} (hA2 : A * A < W64)
    (hNW : 8 * n_start + 8 * bsz + 3 < W64)
    (hsol : ∀ i, i < bsz → ∃ r, solveFrom (8 * (n_start + i) + 3) A = some r) :
    ∀ fuel a st, a % 2 = 1 → a ≤ A → (a + 1) / 2 ≤ fuel →
      (8 * n_start + 3 ≤ a * a → ∀ j, st.composite j = false) →
      (∀ i, i < bsz →
        (∃ ai pi, solveFrom (8 * (n_start + i) + 3) A = some (ai, pi) ∧ a < ai ∧
          st.solved i = true ∧ st.solA i = ai ∧ st.solP i = pi) ∨
        (st.solved i = false ∧
          solveFrom (8 * (n_start + i) + 3) a = solveFrom (8 * (n_start + i) + 3) A)) →
      st.totalSolved = (List.range bsz).countP (fun i => st.solved i) →
      ∃ stf, batchLoop n_start bsz fuel a st = some stf ∧
        ∀ i, i < bsz → stf.solved i = true ∧
          solveFrom (8 * (n_start + i) + 3) A = some (stf.solA i, stf.solP i) := by
  intro fuel
  induction fuel with
  | zero =>
    intro a st ha _ hfuel _ _ _
    omega
  | succ fuel ih =>
    intro a st ha haA hfuel hcmp0 hinv htot
    have hNs : 8 * n_start + 3 < W64 := by omega
    have ha64 : a * a < W64 :=
      lt_of_le_of_lt (Nat.mul_le_mul haA haA) hA2
    have hsq2 : a * a % 2 = 1 := by
      have := odd_sq_mod8 ha
      omega
    set st1 := batch_sieve_for_a n_start bsz st a with hst1def
    set st2 := batch_check_remaining n_start bsz st1 a with hst2def
    obtain ⟨hp1, hp2, hp3, hp4⟩ := batch_sieve_for_a_preserves n_start bsz st a
    rw [← hst1def] at hp1 hp2 hp3 hp4
    have hsound : ∀ idx, idx < bsz → st1.composite idx = true →
        is_prime_fj64_fast ((8 * (n_start + idx) + 3 - a * a) / 2) = false := by
      intro idx hidx hcomp
      by_cases hearly : 8 * n_start + 3 ≤ a * a
      · have he1 : st1 = st := by
          rw [hst1def, batch_sieve_for_a_eq, Nat.mod_eq_of_lt hNs, Nat.mod_eq_of_lt ha64,
            if_pos hearly]
        rw [he1, hcmp0 hearly idx] at hcomp
        exact absurd hcomp (by simp)
      · have h := batch_sieve_for_a_sound st hNs ha64 (by omega) idx (by rw [← hst1def]; exact hcomp)
        have he : (8 * (n_start + idx) + 3 - a * a) / 2 =
            (8 * n_start + 3 - a * a) / 2 + 4 * idx := by omega
        rw [he]
        exact h
    have hspec := batch_check_foldl_spec n_start bsz a _ rfl (List.range bsz)
      (List.nodup_range bsz) st1
    rw [← batch_check_remaining_eq n_start bsz st1 a, ← hst2def] at hspec
    obtain ⟨hsc, hsout, hsin⟩ := hspec
    have htot2 : st2.totalSolved = (List.range bsz).countP (fun i => st2.solved i) := by
      rw [hst2def]
      refine batch_check_total n_start bsz a st1 ?_
      rw [hp4, hp1, htot]
    have hmodN : ∀ i, i < bsz → (8 * (n_start + i) + 3) % W64 = 8 * (n_start + i) + 3 := by
      intro i hi
      exact Nat.mod_eq_of_lt (by omega)
    have hmoda : a * a % W64 = a * a := Nat.mod_eq_of_lt ha64
    -- per-index outcome of the pass
    have houtcome : ∀ i, i < bsz →
        (st.solved i = true →
          st2.solved i = true ∧ st2.solA i = st.solA i ∧ st2.solP i = st.solP i) ∧
        (st.solved i = false →
          (2 ≤ (8 * (n_start + i) + 3 - a * a) / 2 ∧
              is_prime_fj64_fast ((8 * (n_start + i) + 3 - a * a) / 2) = true →
            st2.solved i = true ∧ st2.solA i = a ∧
              st2.solP i = (8 * (n_start + i) + 3 - a * a) / 2) ∧
          (¬ (2 ≤ (8 * (n_start + i) + 3 - a * a) / 2 ∧
              is_prime_fj64_fast ((8 * (n_start + i) + 3 - a * a) / 2) = true) →
            st2.solved i = false)) := by
      intro i hi
      obtain ⟨hin1, hin2, hin3⟩ := hsin i (List.mem_range.mpr hi)
      rw [hp1] at hin1 hin2 hin3
      constructor
      · intro hs
        obtain ⟨r1, r2, r3⟩ := hin1 hs
        rw [hp2] at r2
        rw [hp3] at r3
        exact ⟨r1, r2, r3⟩
      · intro hs
        constructor
        · rintro ⟨hc1, hc2⟩
          have hnle : ¬ 8 * (n_start + i) + 3 ≤ a * a := by omega
          have hcompf : batch_is_composite bsz st1 i = false := by
            rw [batch_is_composite, if_neg (show ¬ bsz ≤ i by omega)]
            rw [Bool.eq_false_iff]
            intro hb
            have := hsound i hi hb
            rw [hc2] at this
            exact absurd this (by simp)
          have := hin2 hs hcompf
            (by rw [hmodN i hi, hmoda]; exact hnle)
            (by rw [hmodN i hi, hmoda]; omega)
            (by rw [hmodN i hi, hmoda]; exact hc2)
          rw [hmodN i hi, hmoda] at this
          exact this
        · intro hnc
          by_cases hc1 : 2 ≤ (8 * (n_start + i) + 3 - a * a) / 2
          · have hc2 : is_prime_fj64_fast ((8 * (n_start + i) + 3 - a * a) / 2) = false := by
              rw [Bool.eq_false_iff]
              intro hb
              exact hnc ⟨hc1, hb⟩
            refine hin3 hs (Or.inr (Or.inr (Or.inr ?_)))
            rw [hmodN i hi, hmoda]
            exact hc2
          · refine hin3 hs (Or.inr (Or.inr (Or.inl ?_)))
            rw [hmodN i hi, hmoda]
            omega
    have hane0 : a ≠ 0 := by omega
    by_cases hall : ∀ i, i < bsz → st2.solved i = true
    · have htoteq : bsz ≤ st2.totalSolved := by
        rw [htot2]
        have : (List.range bsz).countP (fun i => st2.solved i) = (List.range bsz).length :=
          List.countP_eq_length.mpr fun i hi => hall i (List.mem_range.mp hi)
        rw [this, List.length_range]
      refine ⟨st2, ?_, ?_⟩
      · rw [batchLoop_succ, if_neg hane0, ← hst1def, ← hst2def, if_pos htoteq]
      · intro i hi
        refine ⟨hall i hi, ?_⟩
        rcases hinv i hi with ⟨ai, pi, hsf, hai, hsv, hsa, hsp⟩ | ⟨hsv, heq⟩
        · obtain ⟨r1, r2, r3⟩ := (houtcome i hi).1 hsv
          rw [r2, r3, hsa, hsp]
          exact hsf
        · obtain ⟨hrec, hskip⟩ := (houtcome i hi).2 hsv
          by_cases hcond : 2 ≤ (8 * (n_start + i) + 3 - a * a) / 2 ∧
              is_prime_fj64_fast ((8 * (n_start + i) + 3 - a * a) / 2) = true
          · obtain ⟨r1, r2, r3⟩ := hrec hcond
            rw [r2, r3, ← heq, solveFrom_eq, if_pos hcond]
          · exact absurd (hall i hi) (by rw [hskip hcond]; simp)
    · push_neg at hall
      obtain ⟨i0, hi0, hns0⟩ := hall
      have hns0' : st2.solved i0 = false := Bool.eq_false_iff.mpr hns0
      -- i0 was unsolved before the pass and its test failed
      have hst0 : st.solved i0 = false ∧
          solveFrom (8 * (n_start + i0) + 3) a = solveFrom (8 * (n_start + i0) + 3) A := by
        rcases hinv i0 hi0 with ⟨ai, pi, _, _, hsv, _, _⟩ | h
        · obtain ⟨r1, -, -⟩ := (houtcome i0 hi0).1 hsv
          rw [r1] at hns0'
          exact absurd hns0' (by simp)
        · exact h
      have hnc0 : ¬ (2 ≤ (8 * (n_start + i0) + 3 - a * a) / 2 ∧
          is_prime_fj64_fast ((8 * (n_start + i0) + 3 - a * a) / 2) = true) := by
        intro hc
        obtain ⟨r1, -, -⟩ := ((houtcome i0 hi0).2 hst0.1).1 hc
        rw [r1] at hns0'
        exact absurd hns0' (by simp)
      have ha3 : 3 ≤ a := by
        rcases Nat.lt_or_ge a 3 with h | h
        · exfalso
          have ha1 : a = 1 := by omega
          obtain ⟨r, hr⟩ := hsol i0 hi0
          rw [← hst0.2, solveFrom_eq, if_neg hnc0, if_pos (by omega)] at hr
          exact Option.noConfusion hr
        · exact h
      have htotlt : ¬ bsz ≤ st2.totalSolved := by
        intro hle
        have hcle := @List.countP_le_length Nat (fun i => st2.solved i) (List.range bsz)
        rw [List.length_range] at hcle
        have hceq : (List.range bsz).countP (fun i => st2.solved i) = bsz := by omega
        have := List.countP_eq_length.mp (by rw [hceq, List.length_range]) i0
          (List.mem_range.mpr hi0)
        rw [hns0'] at this
        exact absurd this (by simp)
      have haW : a < W64 := lt_of_le_of_lt haA
        (lt_of_le_of_lt (Nat.le_mul_of_pos_left A (show 0 < A by omega)) hA2)
      have hstep : (a + (W64 - 2)) % W64 = a - 2 := by
        rw [W64_lit] at haW ⊢
        omega
      have hrec := ih (a - 2) st2 (by omega) (by omega) (by omega) ?cmp ?inv htot2
      case cmp =>
        intro hge j
        have hge' : 8 * n_start + 3 ≤ a * a := by
          have : (a - 2) * (a - 2) ≤ a * a := Nat.mul_le_mul (by omega) (by omega)
          omega
        have he1 : st1 = st := by
          rw [hst1def, batch_sieve_for_a_eq, Nat.mod_eq_of_lt hNs, Nat.mod_eq_of_lt ha64,
            if_pos hge']
        rw [hsc, he1]
        exact hcmp0 hge' j
      case inv =>
        intro i hi
        rcases hinv i hi with ⟨ai, pi, hsf, hai, hsv, hsa, hsp⟩ | ⟨hsv, heq⟩
        · obtain ⟨r1, r2, r3⟩ := (houtcome i hi).1 hsv
          exact Or.inl ⟨ai, pi, hsf, by omega, r1, by rw [r2, hsa], by rw [r3, hsp]⟩
        · obtain ⟨hrec', hskip⟩ := (houtcome i hi).2 hsv
          by_cases hcond : 2 ≤ (8 * (n_start + i) + 3 - a * a) / 2 ∧
              is_prime_fj64_fast ((8 * (n_start + i) + 3 - a * a) / 2) = true
          · obtain ⟨r1, r2, r3⟩ := hrec' hcond
            refine Or.inl ⟨a, (8 * (n_start + i) + 3 - a * a) / 2, ?_, by omega, r1, r2, r3⟩
            rw [← heq, solveFrom_eq, if_pos hcond]
          · refine Or.inr ⟨hskip hcond, ?_⟩
            rw [← heq, solveFrom_eq _ a, if_neg hcond, if_neg (show ¬ a < 3 by omega)]
      obtain ⟨stf, hloop, hrecords⟩ := hrec
      refine ⟨stf, ?_, hrecords⟩
      rw [batchLoop_succ, if_neg hane0, ← hst1def, ← hst2def, if_neg htotlt, hstep]
      exact hloop

/-- C3 : Corrected round-trip identity.  On a batch whose composite
bitmap is all-clear at entry (the code reads the `malloc`ed bitmap
uninitialized in the early passes with `a² ≥ 8·n_start + 3`, see the
counterexample), and in which every index is genuinely solved during the
descent from the batch's `a_max` (so the unsigned a-loop exits via the
all-solved break), `batch_process` terminates and records for every
`n = n_start + i` exactly the pair the per-n solver computes from its own
odd integer square root. -/
theorem C3_batch_matches_solver (seed isqrtFuel fuel n_start bsz r : Nat)
    (hisq : isqrt64 seed isqrtFuel ((8 * (n_start + bsz - 1) + 3) % W64) = some r)
    (hA2 : oddify r * oddify r < W64)
    (hNW : 8 * n_start + 8 * bsz + 3 < W64)
    (hfuel : (oddify r + 1) / 2 ≤ fuel)
    (hAbig : ∀ i, i < bsz → oddSqrtSpec (8 * (n_start + i) + 3) ≤ oddify r)
    (hsol : ∀ i, i < bsz → ∃ p, solveFrom (8 * (n_start + i) + 3) (oddify r) = some p) :
    ∃ stf, batch_process seed isqrtFuel fuel n_start bsz (batchInit (fun _ => false)) =
        some stf ∧
      ∀ i, i < bsz → stf.solved i = true ∧
        find_solution_from_N (8 * (n_start + i) + 3)
            (oddSqrtSpec (8 * (n_start + i) + 3)) =
          some (stf.solA i, stf.solP i) := by
  have hprocess : batch_process seed isqrtFuel fuel n_start bsz (batchInit (fun _ => false)) =
      batchLoop n_start bsz fuel (oddify r) (batchInit (fun _ => false)) := by
    rw [batch_process, hisq]
  obtain ⟨stf, hloop, hrecords⟩ :=
    batchLoop_correct hA2 hNW hsol fuel (oddify r) (batchInit (fun _ => false))
      (oddify_odd r) le_rfl hfuel (fun _ _ => rfl)
      (fun i _ => Or.inr ⟨rfl, rfl⟩)
      ((List.countP_eq_zero.mpr (fun i _ => by simp [batchInit])).symm)
  refine ⟨stf, by rw [hprocess]; exact hloop, ?_⟩
  intro i hi
  obtain ⟨hsv, hsf⟩ := hrecords i hi
  refine ⟨hsv, ?_⟩
  have hN1 : 1 ≤ 8 * (n_start + i) + 3 := by omega
  obtain ⟨hspec_odd, hspec_sq, -⟩ := oddSqrtSpec_spec hN1
  rw [find_solution_from_N_eq_solveFrom (by omega) (by omega) hspec_odd hspec_sq]
  rw [← solveFrom_drop hN1 (oddify r) (oddify_odd r) (hAbig i hi)]
  exact hsf

theorem C3_batch_matches_solver_witness :
    isqrt64 5 2 ((8 * (2 + 3 - 1) + 3) % W64) = some 5 ∧
    oddify 5 * oddify 5 < W64 ∧
    (∃ stf, batch_process 5 2 3 2 3 (batchInit (fun _ => false)) = some stf ∧
      ∀ i, i < 3 → stf.solved i = true ∧
        find_solution_from_N (8 * (2 + i) + 3) (oddSqrtSpec (8 * (2 + i) + 3)) =
          some (stf.solA i, stf.solP i)) := by
  have hA5 : ∀ N, N ≤ 35 → oddSqrtSpec N ≤ 5 := by
    intro N hN
    have h := Nat.sqrt_lt.mpr (show N < 6 * 6 by omega)
    rw [oddSqrtSpec]
    split_ifs <;> omega
  refine ⟨by decide, by norm_num [oddify, W64], ?_⟩
  refine C3_batch_matches_solver 5 2 3 2 3 5 (by decide) (by norm_num [oddify, W64])
    (by norm_num [W64]) (by norm_num [oddify]) ?_ ?_
  · intro i hi
    exact hA5 (8 * (2 + i) + 3) (by omega)
  · intro i hi
    match i, hi with
    | 0, _ => exact ⟨(3, 5), by decide⟩
    | 1, _ => exact ⟨(1, 13), by decide⟩
    | 2, _ => exact ⟨(5, 5), by decide⟩

/-! ### C2 : the present `is_prime_fj64_fast` dispatch vs trial division -/

/-- The standard exponentiation loop computes `res · b^e` modulo `m`. -/
theorem powmodLoop_modEq {m : Nat} (hm : 0 < m) :
    ∀ e res b, powmodLoop m e res b ≡ res * b ^ e [MOD m] := by
  intro e
  induction e using Nat.strong_induction_on with
  | _ e ih =>
    intro res b
    rw [powmodLoop_eq]
    by_cases h0 : e = 0
    · rw [if_pos h0, h0, pow_zero, Nat.mul_one]
    · rw [if_neg h0]
      by_cases hpar : e % 2 = 1
      · obtain ⟨k, rfl⟩ : ∃ k, e = 2 * k + 1 := ⟨e / 2, by omega⟩
        have hdiv : (2 * k + 1) / 2 = k := by omega
        rw [if_pos hpar, hdiv]
        refine (ih k (by omega) (mulmod64_std res b m) (mulmod64_std b b m)).trans ?_
        have hb : (mulmod64_std b b m : Nat) ^ k ≡ (b * b) ^ k [MOD m] :=
          (Nat.mod_modEq (b * b) m).pow _
        calc mulmod64_std res b m * mulmod64_std b b m ^ k
            ≡ res * b * (b * b) ^ k [MOD m] := Nat.ModEq.mul (Nat.mod_modEq _ _) hb
          _ = res * b ^ (2 * k + 1) := by
              rw [mul_pow, ← pow_add, pow_succ, two_mul]
              ring
      · obtain ⟨k, rfl⟩ : ∃ k, e = 2 * k := ⟨e / 2, by omega⟩
        have hdiv : 2 * k / 2 = k := by omega
        rw [if_neg hpar, hdiv]
        refine (ih k (by omega) res (mulmod64_std b b m)).trans ?_
        have hb : (mulmod64_std b b m : Nat) ^ k ≡ (b * b) ^ k [MOD m] :=
          (Nat.mod_modEq (b * b) m).pow _
        calc res * mulmod64_std b b m ^ k
            ≡ res * (b * b) ^ k [MOD m] := Nat.ModEq.mul_left res hb
          _ = res * b ^ (2 * k) := by
              rw [mul_pow, ← pow_add, two_mul]

/-- `twoVal` extracts the full power of two: `m = 2^(twoVal m) · odd`. -/
theorem twoVal_spec : ∀ m, 0 < m →
    m = 2 ^ twoVal m * (m >>> twoVal m) ∧ (m >>> twoVal m) % 2 = 1 := by
  intro m
  induction m using Nat.strong_induction_on with
  | _ m ih =>
    intro hm
    obtain ⟨k, rfl⟩ : ∃ k, m = k + 1 := ⟨m - 1, by omega⟩
    by_cases hpar : (k + 1) % 2 = 1
    · rw [twoVal, if_pos hpar, pow_zero, Nat.one_mul, Nat.shiftRight_zero]
      exact ⟨rfl, hpar⟩
    · rw [twoVal, if_neg hpar]
      have hlt : (k + 1) / 2 < k + 1 := Nat.div_lt_self (by omega) (by omega)
      have hpos : 0 < (k + 1) / 2 := by omega
      obtain ⟨ha, hb⟩ := ih ((k + 1) / 2) hlt hpos
      have hs : ∀ t, (k + 1) >>> (t + 1) = ((k + 1) / 2) >>> t := by
        intro t
        rw [Nat.shiftRight_eq_div_pow, Nat.shiftRight_eq_div_pow,
          Nat.div_div_eq_div_mul, pow_succ, Nat.mul_comm (2 ^ t) 2]
      rw [hs]
      refine ⟨?_, hb⟩
      have he : k + 1 = 2 * ((k + 1) / 2) := by omega
      rw [pow_succ]
      calc k + 1 = 2 * ((k + 1) / 2) := he
        _ = 2 * (2 ^ twoVal ((k + 1) / 2) * (((k + 1) / 2) >>> twoVal ((k + 1) / 2))) := by
            rw [← ha]
        _ = 2 ^ twoVal ((k + 1) / 2) * 2 * (((k + 1) / 2) >>> twoVal ((k + 1) / 2)) := by
            ring

theorem zmod_natCast_pred {n : Nat} (h1 : 1 ≤ n) : ((n - 1 : Nat) : ZMod n) = -1 := by
  rw [Nat.cast_sub h1, Nat.cast_one, ZMod.natCast_self]
  ring

theorem zmod_cast_inj_of_lt {n x y : Nat} (hx : x < n) (hy : y < n)
    (h : (x : ZMod n) = (y : ZMod n)) : x = y := by
  have h1 := (ZMod.natCast_eq_natCast_iff x y n).mp h
  have h2 : x % n = y % n := h1
  rw [Nat.mod_eq_of_lt hx, Nat.mod_eq_of_lt hy] at h2
  exact h2

theorem zmod_one_ne_negone {n : Nat} (h2 : 2 < n) : (1 : ZMod n) ≠ -1 := by
  intro h
  have hh : ((2 : Nat) : ZMod n) = ((0 : Nat) : ZMod n) := by
    push_cast
    rw [show (2 : ZMod n) = 1 + 1 by norm_num]
    nth_rewrite 1 [h]
    ring
  have h1 := (ZMod.natCast_eq_natCast_iff 2 0 n).mp hh
  have h3 : 2 % n = 0 % n := h1
  rw [Nat.mod_eq_of_lt (by omega), Nat.zero_mod] at h3
  omega

/-- If the `ZMod` square chain of `x` first reaches `-1` after `i + 1`
squarings (no earlier square being `±1`), the code's squaring loop
answers `true` given at least `i + 1` iterations. -/
theorem sqLoopStd_reaches {n : Nat} (h2 : 2 < n) :
    ∀ (i x count : Nat), x < n →
      (x : ZMod n) ^ 2 ^ (i + 1) = -1 →
      (∀ j, 1 ≤ j → j ≤ i → (x : ZMod n) ^ 2 ^ j ≠ 1 ∧ (x : ZMod n) ^ 2 ^ j ≠ -1) →
      i + 1 ≤ count →
      sqLoopStd n x count = true := by
  intro i
  induction i with
  | zero =>
    intro x count hx hval _ hcount
    obtain ⟨c, rfl⟩ : ∃ c, count = c + 1 := ⟨count - 1, by omega⟩
    simp only [sqLoopStd, mulmod64_std]
    have hval' : (x : ZMod n) ^ 2 = -1 := by
      have he : (2 : Nat) ^ (0 + 1) = 2 := by norm_num
      rw [he] at hval
      exact hval
    have hyc : ((x * x % n : Nat) : ZMod n) = (x : ZMod n) ^ 2 := by
      rw [ZMod.natCast_mod, Nat.cast_mul]
      ring
    have hyn : x * x % n = n - 1 :=
      zmod_cast_inj_of_lt (Nat.mod_lt _ (by omega)) (by omega)
        (by rw [hyc, hval', zmod_natCast_pred (by omega)])
    rw [if_pos hyn]
  | succ i ih =>
    intro x count hx hval hmid hcount
    obtain ⟨c, rfl⟩ : ∃ c, count = c + 1 := ⟨count - 1, by omega⟩
    simp only [sqLoopStd, mulmod64_std]
    have hyc : ((x * x % n : Nat) : ZMod n) = (x : ZMod n) ^ 2 := by
      rw [ZMod.natCast_mod, Nat.cast_mul]
      ring
    have h1mid := hmid 1 (by omega) (by omega)
    have h21 : (2 : Nat) ^ 1 = 2 := by norm_num
    rw [h21] at h1mid
    have hyn1 : x * x % n ≠ n - 1 := by
      intro h
      refine h1mid.2 ?_
      rw [← hyc, h, zmod_natCast_pred (by omega)]
    have hy1 : x * x % n ≠ 1 := by
      intro h
      refine h1mid.1 ?_
      rw [← hyc, h, Nat.cast_one]
    rw [if_neg hyn1, if_neg hy1]
    refine ih (x * x % n) c (Nat.mod_lt _ (by omega)) ?_ ?_ (by omega)
    · rw [hyc, ← pow_mul]
      have he : 2 * 2 ^ (i + 1) = 2 ^ (i + 1 + 1) := by
        rw [pow_succ]
        ring
      rw [he]
      exact hval
    · intro j hj1 hji
      have hh := hmid (j + 1) (by omega) (by omega)
      have hcast : ((x * x % n : Nat) : ZMod n) ^ 2 ^ j = (x : ZMod n) ^ 2 ^ (j + 1) := by
        rw [hyc, ← pow_mul]
        congr 1
        rw [pow_succ]
        ring
      exact ⟨fun h => hh.1 (by rw [← hcast]; exact h),
        fun h => hh.2 (by rw [← hcast]; exact h)⟩

/-- The zeta-expanded shape of `mr_witness_std`. -/
theorem mr_witness_std_eq (n a : Nat) :
    mr_witness_std n a =
      if (if n ≤ a then a % n else a) = 0 then true
      else
        if powmod64_std (if n ≤ a then a % n else a) ((n - 1) >>> twoVal (n - 1)) n = 1 ∨
            powmod64_std (if n ≤ a then a % n else a) ((n - 1) >>> twoVal (n - 1)) n =
              n - 1 then
          true
        else
          sqLoopStd n
            (powmod64_std (if n ≤ a then a % n else a) ((n - 1) >>> twoVal (n - 1)) n)
            (twoVal (n - 1) - 1) := rfl

/-- An odd prime passes the standard Miller-Rabin witness test for every
base: the power chain of any nonzero base reaches `1` through `-1` (or
starts at `±1`), by Fermat's little theorem and the fact that `±1` are
the only square roots of `1` in the prime field. -/
theorem mr_witness_std_prime {n : Nat} (hp : Nat.Prime n) (hodd : n % 2 = 1)
    (h2 : 2 < n) (a : Nat) : mr_witness_std n a = true := by
  haveI : Fact (Nat.Prime n) := ⟨hp⟩
  haveI : NeZero n := ⟨by omega⟩
  rw [mr_witness_std_eq]
  set a' := if n ≤ a then a % n else a with ha'
  by_cases h0 : a' = 0
  · rw [if_pos h0]
  · rw [if_neg h0]
    have ha'lt : a' < n := by
      rw [ha']
      split_ifs with h
      · exact Nat.mod_lt _ (by omega)
      · omega
    have hα0 : (a' : ZMod n) ≠ 0 := by
      intro hz
      have hdvd := (ZMod.natCast_zmod_eq_zero_iff_dvd a' n).mp hz
      have := Nat.le_of_dvd (Nat.pos_of_ne_zero h0) hdvd
      omega
    obtain ⟨hrd, hdodd⟩ := twoVal_spec (n - 1) (by omega)
    have hr1 : 1 ≤ twoVal (n - 1) := by
      by_contra hcon
      push_neg at hcon
      have hr0 : twoVal (n - 1) = 0 := by omega
      rw [hr0, Nat.shiftRight_zero] at hdodd
      omega
    have hd1 : 1 ≤ (n - 1) >>> twoVal (n - 1) := by
      rcases Nat.eq_zero_or_pos ((n - 1) >>> twoVal (n - 1)) with hz | hpos
      · rw [hz, Nat.mul_zero] at hrd
        omega
      · exact hpos
    have hferm : (a' : ZMod n) ^ (2 ^ twoVal (n - 1) * ((n - 1) >>> twoVal (n - 1))) = 1 := by
      rw [← hrd]
      exact ZMod.pow_card_sub_one_eq_one hα0
    set x := powmod64_std a' ((n - 1) >>> twoVal (n - 1)) n with hxdef
    have hxlt : x < n := by
      rw [hxdef, powmod64_std]
      exact powmodLoop_lt (by omega) _ 1 (a' % n) (by omega)
    have hxcast : (x : ZMod n) = (a' : ZMod n) ^ ((n - 1) >>> twoVal (n - 1)) := by
      have hcong : x ≡ a' ^ ((n - 1) >>> twoVal (n - 1)) [MOD n] := by
        rw [hxdef, powmod64_std]
        refine (powmodLoop_modEq (show 0 < n by omega) _ 1 (a' % n)).trans ?_
        rw [Nat.one_mul]
        exact Nat.ModEq.pow _ (Nat.mod_modEq a' n)
      have hcc := (ZMod.natCast_eq_natCast_iff _ _ _).mpr hcong
      rw [hcc]
      push_cast
      ring
    classical
    have hPex : ∃ i, (a' : ZMod n) ^ (2 ^ i * ((n - 1) >>> twoVal (n - 1))) = 1 ∨
        (a' : ZMod n) ^ (2 ^ i * ((n - 1) >>> twoVal (n - 1))) = -1 :=
      ⟨twoVal (n - 1), Or.inl hferm⟩
    set i0 := Nat.find hPex with hi0def
    have hi0spec := Nat.find_spec hPex
    rw [← hi0def] at hi0spec
    have hi0min : ∀ j, j < i0 →
        ¬ ((a' : ZMod n) ^ (2 ^ j * ((n - 1) >>> twoVal (n - 1))) = 1 ∨
          (a' : ZMod n) ^ (2 ^ j * ((n - 1) >>> twoVal (n - 1))) = -1) :=
      fun j hj => Nat.find_min hPex hj
    have hi0le : i0 ≤ twoVal (n - 1) := Nat.find_le (Or.inl hferm)
    by_cases hx1 : x = 1 ∨ x = n - 1
    · rw [if_pos hx1]
    · rw [if_neg hx1]
      push_neg at hx1
      have hi0pos : 1 ≤ i0 := by
        rcases Nat.eq_zero_or_pos i0 with hz | hpos
        · exfalso
          rw [hz, pow_zero, Nat.one_mul] at hi0spec
          rcases hi0spec with hh | hh
          · refine hx1.1 (zmod_cast_inj_of_lt hxlt (by omega) ?_)
            rw [hxcast, hh, Nat.cast_one]
          · refine hx1.2 (zmod_cast_inj_of_lt hxlt (by omega) ?_)
            rw [hxcast, hh, zmod_natCast_pred (by omega)]
        · exact hpos
      have hval : (a' : ZMod n) ^ (2 ^ i0 * ((n - 1) >>> twoVal (n - 1))) = -1 := by
        rcases hi0spec with hh | hh
        · exfalso
          have h2e : 2 ^ (i0 - 1) * 2 = 2 ^ i0 := by
            rw [← pow_succ]
            congr 1
            omega
          have hsq : (a' : ZMod n) ^ (2 ^ (i0 - 1) * ((n - 1) >>> twoVal (n - 1))) *
              (a' : ZMod n) ^ (2 ^ (i0 - 1) * ((n - 1) >>> twoVal (n - 1))) = 1 := by
            rw [← pow_add]
            have he : 2 ^ (i0 - 1) * ((n - 1) >>> twoVal (n - 1)) +
                2 ^ (i0 - 1) * ((n - 1) >>> twoVal (n - 1)) =
                2 ^ i0 * ((n - 1) >>> twoVal (n - 1)) := by
              calc 2 ^ (i0 - 1) * ((n - 1) >>> twoVal (n - 1)) +
                  2 ^ (i0 - 1) * ((n - 1) >>> twoVal (n - 1)) =
                  2 ^ (i0 - 1) * 2 * ((n - 1) >>> twoVal (n - 1)) := by ring
                _ = 2 ^ i0 * ((n - 1) >>> twoVal (n - 1)) := by rw [h2e]
            rw [he]
            exact hh
          rcases mul_self_eq_one_iff.mp hsq with hh2 | hh2
          · exact hi0min (i0 - 1) (by omega) (Or.inl hh2)
          · exact hi0min (i0 - 1) (by omega) (Or.inr hh2)
        · exact hh
      have hi0lt : i0 < twoVal (n - 1) := by
        rcases Nat.eq_or_lt_of_le hi0le with he | hlt
        · exfalso
          rw [he, hferm] at hval
          exact zmod_one_ne_negone h2 hval
        · exact hlt
      refine sqLoopStd_reaches h2 (i0 - 1) x (twoVal (n - 1) - 1) hxlt ?_ ?_ (by omega)
      · rw [hxcast, ← pow_mul]
        have he : ((n - 1) >>> twoVal (n - 1)) * 2 ^ (i0 - 1 + 1) =
            2 ^ i0 * ((n - 1) >>> twoVal (n - 1)) := by
          have hi : i0 - 1 + 1 = i0 := by omega
          rw [hi]
          ring
        rw [he]
        exact hval
      · intro j hj1 hji
        have hmin := hi0min j (by omega)
        push_neg at hmin
        have hxx : (x : ZMod n) ^ 2 ^ j =
            (a' : ZMod n) ^ (2 ^ j * ((n - 1) >>> twoVal (n - 1))) := by
          rw [hxcast, ← pow_mul]
          congr 1
          ring
        exact ⟨fun h => hmin.1 (by rw [← hxx]; exact h),
          fun h => hmin.2 (by rw [← hxx]; exact h)⟩

/-- At `n = 1` the hybrid witness test answers `true` for every base:
`a %= n` leaves `0` and both rounds return at `if (a == 0) return true`. -/
theorem mr_witness_montgomery_at_one (a : Nat) : mr_witness_montgomery 1 a = true := by
  rw [mr_witness_montgomery,
    if_pos (show (1 : Nat) < MONTGOMERY_SAFE_THRESHOLD by norm_num [MONTGOMERY_SAFE_THRESHOLD])]
  have ha : (if (1 : Nat) ≤ a then a % 1 else a) = 0 := by
    split_ifs with h
    · exact Nat.mod_one a
    · omega
  simp [mr_witness_montgomery_safe, ha]

/-- Whatever the absent witness table contains, the present dispatch code
(`a %= n; if (a == 0) return true` in both rounds) forces
`is_prime_fj64_fast(1) = true`. -/
theorem is_prime_dispatch_at_one (fj64_bases : Nat → Nat) :
    is_prime_fj64_fast_dispatch fj64_bases 1 = true := by
  rw [is_prime_fj64_fast_dispatch,
    if_neg (fun hc => hc (mr_witness_montgomery_at_one 2))]
  exact mr_witness_montgomery_at_one _

/-- Refutation of the frozen oracle-agreement claim at the program level:
at `n = 1 ≤ 10^7` the present dispatch answers `true` (here shown for the
all-zero table; `is_prime_dispatch_at_one` proves it for every table),
while the trivial trial-division test answers that `1` is not prime. -/
theorem C2_dispatch_true_at_one :
    is_prime_fj64_fast_dispatch (fun _ => 0) 1 = true ∧
      trialDivisionIsPrimeSpec 1 = false :=
  ⟨is_prime_dispatch_at_one (fun _ => 0), by decide⟩

/-- C2 : Corrected oracle agreement.  Inside the stated contract (`n`
odd, `127 < n`, here also `n ≤ 10^7` as in the claim) the present
two-round dispatch agrees with a trivial trial-division test, granted
§4.2's guarantee about the absent table at `n` (a composite `n` that is a
strong probable prime to base 2 is witnessed by the hashed table base);
primes need no table assumption, by Fermat's little theorem.  Outside the
contract the agreement fails for every possible table: see the
counterexample at `n = 1`. -/
theorem C2_oracle_agreement_in_contract (fj64_bases : Nat → Nat) (n : Nat)
    (hn : n ≤ 10 ^ 7) (h127 : 127 < n) (hodd : n % 2 = 1)
    (htable : ¬ Nat.Prime n → mr_witness_montgomery n 2 = true →
      mr_witness_montgomery n (fj64_bases (fj64_hash n)) = false) :
    is_prime_fj64_fast_dispatch fj64_bases n = trialDivisionIsPrimeSpec n := by
  have h63 : n < MONTGOMERY_SAFE_THRESHOLD := by
    have hlit : (10 : Nat) ^ 7 < MONTGOMERY_SAFE_THRESHOLD := by
      norm_num [MONTGOMERY_SAFE_THRESHOLD]
    omega
  have hmont_eq : ∀ b, mr_witness_montgomery n b = mr_witness_std n b := by
    intro b
    rw [mr_witness_montgomery, if_pos h63]
    exact mr_safe_eq_std hodd (by omega) h63 b
  rw [is_prime_fj64_fast_dispatch]
  by_cases hprime : Nat.Prime n
  · have hall : ∀ b, mr_witness_montgomery n b = true := fun b => by
      rw [hmont_eq b]
      exact mr_witness_std_prime hprime hodd (by omega) b
    rw [if_neg (fun hc => hc (hall 2)), hall _]
    symm
    rw [trialDivisionIsPrimeSpec_iff]
    exact hprime
  · have htd : trialDivisionIsPrimeSpec n = false := by
      rw [Bool.eq_false_iff]
      intro hb
      exact hprime ((trialDivisionIsPrimeSpec_iff n).mp hb)
    rw [htd]
    by_cases hm2 : mr_witness_montgomery n 2 = true
    · rw [if_neg (fun hc => hc hm2)]
      exact htable hprime hm2
    · rw [if_pos hm2]

theorem C2_oracle_agreement_in_contract_witness :
    131 ≤ 10 ^ 7 ∧ 127 < 131 ∧ 131 % 2 = 1 ∧
      is_prime_fj64_fast_dispatch (fun _ => 0) 131 = trialDivisionIsPrimeSpec 131 :=
  ⟨by norm_num, by norm_num, by norm_num,
    C2_oracle_agreement_in_contract (fun _ => 0) 131 (by norm_num) (by norm_num)
      (by norm_num)
      (fun hnp _ => absurd ((is_prime_fj64_fast_iff 131).mp (by decide)) hnp)⟩
